import Mathlib

/-!
# Verification of the gTorrent core against its specification

A shallow embedding, in Lean 4, of the parts of the gTorrent BitTorrent client
that its specification makes checkable claims about:

* the bencode codec (`bencode/bencode.go`: `Decode`, `Encode`),
* the metainfo model (`torrent/torrent.go`: `TorrentFromBencodeData`,
  `TorrentFromBytes`, and the piece/file geometry),
* the streaming verifier (`torrent/torrent.go`: `VerifyTorrent`),
* the peer-wire message framing and bitfields (`torrent/protocol.go`),
* the download orchestrator's write-back and piece bookkeeping
  (`download_manager.go`: `writePiece`, `startDownloadFromPeers`).

Byte strings are modelled as `List Nat` with every element `< 256`; Go's
`int`/`int64` are modelled as `Int` (with `Int.tdiv`/`Int.tmod` for Go's
truncating division) where signedness matters and as `Nat` where the Go
values are provably non-negative.  Go run-time panics (nil dereference,
out-of-range slice, division by zero) are modelled as `Option`-failure
(`none`); the spots where this happens are marked in comments.
-/

set_option maxRecDepth 100000

namespace Gtor

/-- Bytes of an (ASCII) string constant, used to write byte-string literals. -/
def strBytes (s : String) : List Nat := s.toList.map Char.toNat

/-! ## Decimal printing and parsing (Go `strconv`, `fmt %d`)

`natDecimal` is the digit string `fmt.Sprintf("%d", n)` for a non-negative
value; `intDecimal` handles the sign, as Go's `%d` on `int64` does.
`parseInt64` models `strconv.ParseInt(s, 10, 64)` (and `strconv.Atoi` on a
64-bit platform): an optional sign, at least one digit, and a 64-bit range
check.  Go's `ParseInt` accepts redundant leading zeros and `-0`. -/

/-- Digit loop of `natDecimal`, with structural fuel (so that the kernel can
evaluate it; the fuel-exhausted arm is unreachable whenever `n < fuel`). -/
def natDecimalF : Nat → Nat → List Nat
  | 0, n => [48 + n % 10]
  | fuel + 1, n => if n < 10 then [48 + n] else natDecimalF fuel (n / 10) ++ [48 + n % 10]

/-- ASCII decimal digits of `n`, most significant first (`fmt %d` on `n ≥ 0`). -/
def natDecimal (n : Nat) : List Nat := natDecimalF (n + 1) n

/-- ASCII decimal rendering of an `Int` (`fmt %d` on `int64`). -/
def intDecimal (n : Int) : List Nat :=
  if n < 0 then 45 :: natDecimal (-n).toNat else natDecimal n.toNat

/-- Digit-accumulating loop of `strconv.ParseInt`: fails on any non-digit. -/
def parseDigitsAcc (acc : Nat) : List Nat → Option Nat
  | [] => some acc
  | c :: cs => if 48 ≤ c ∧ c ≤ 57 then parseDigitsAcc (acc * 10 + (c - 48)) cs else none

/-- `strconv.ParseInt(s, 10, 64)`: optional `+`/`-` sign, a non-empty digit
string, and the `int64` range check.  Redundant leading zeros and `-0` are
accepted, exactly as Go's `ParseInt` accepts them. -/
def parseInt64 (s : List Nat) : Option Int :=
  match s with
  | [] => none
  | c :: cs =>
    let neg : Bool := c = 45
    let digits : List Nat := if c = 45 ∨ c = 43 then cs else s
    match digits with
    | [] => none
    | _ :: _ =>
      match parseDigitsAcc 0 digits with
      | none => none
      | some m =>
        if neg then
          if m ≤ 2 ^ 63 then some (-(m : Int)) else none
        else
          if m ≤ 2 ^ 63 - 1 then some (m : Int) else none

/-! ## Generic byte-list helpers -/

/-- Index of the first occurrence of byte `b`, scanning from the front
(models the Go `for i := ...; content[i] == b` search loops). -/
def findByte (b : Nat) : List Nat → Option Nat
  | [] => none
  | c :: cs => if c = b then some 0 else (findByte b cs).map (· + 1)

/-- Chunking loop with structural fuel; each chunk consumes at least one
element, so fuel `|l| + 1` is always enough. -/
def chunksOfF : Nat → Nat → List Nat → List (List Nat)
  | 0, _, _ => []
  | fuel + 1, p, l =>
    if p = 0 ∨ l = [] then [] else l.take p :: chunksOfF fuel p (l.drop p)

/-- Split a list into consecutive chunks of `p` elements, the last chunk
possibly shorter.  `chunksOf 0 l = []` (a zero-length read loop exits at
once, as Go's `f.Read` with an empty buffer does). -/
def chunksOf (p : Nat) (l : List Nat) : List (List Nat) :=
  chunksOfF (l.length + 1) p l

/-- Big-endian 4-byte encoding of a 32-bit value
(`binary.BigEndian.PutUint32`; values are reduced mod 2³² bytewise). -/
def u32be (n : Nat) : List Nat :=
  [n / 2 ^ 24 % 256, n / 2 ^ 16 % 256, n / 2 ^ 8 % 256, n % 256]

/-- Big-endian 8-byte encoding of a 64-bit value. -/
def u64be (n : Nat) : List Nat :=
  [n / 2 ^ 56 % 256, n / 2 ^ 48 % 256, n / 2 ^ 40 % 256, n / 2 ^ 32 % 256,
   n / 2 ^ 24 % 256, n / 2 ^ 16 % 256, n / 2 ^ 8 % 256, n % 256]

/-- Lowercase hex digit of a nibble (`fmt %x`). -/
def hexDigit (n : Nat) : Nat := if n < 10 then 48 + n else 87 + n

/-- Lowercase hex string of a byte slice (`fmt.Sprintf("%x", bs)`). -/
def hexStr (bs : List Nat) : List Nat :=
  bs.flatMap fun b => [hexDigit (b / 16), hexDigit (b % 16)]

/-! ## SHA-1 (Go `crypto/sha1`, FIPS 180-4)

A direct executable transcription of the SHA-1 compression function over
`Nat`, with 32-bit words kept reduced mod 2³². -/

/-- 32-bit left rotation. -/
def rotl32 (n x : Nat) : Nat := ((x <<< n) ||| (x >>> (32 - n))) % 2 ^ 32

/-- Merkle–Damgård padding: `0x80`, zeros to 56 mod 64, 64-bit big-endian
bit length. -/
def sha1Pad (msg : List Nat) : List Nat :=
  msg ++ 128 :: List.replicate ((64 + 56 - (msg.length + 1) % 64) % 64) 0
      ++ u64be (8 * msg.length)

/-- Big-endian 32-bit words of a 64-byte chunk. -/
def wordsOfChunk (c : List Nat) : List Nat :=
  (chunksOf 4 c).map fun b => b.foldl (fun a x => a * 256 + x) 0

/-- Message-schedule extension: append `k` more words to `w`. -/
def extendW : Nat → List Nat → List Nat
  | 0, w => w
  | k + 1, w =>
    extendW k (w ++ [rotl32 1 (w.getD (w.length - 3) 0 ^^^ w.getD (w.length - 8) 0
      ^^^ w.getD (w.length - 14) 0 ^^^ w.getD (w.length - 16) 0)])

/-- One SHA-1 round. -/
def sha1Round (w : List Nat) (st : Nat × Nat × Nat × Nat × Nat) (i : Nat) :
    Nat × Nat × Nat × Nat × Nat :=
  let (a, b, c, d, e) := st
  let f :=
    if i < 20 then (b &&& c) ||| ((b ^^^ (2 ^ 32 - 1)) &&& d)
    else if i < 40 then b ^^^ c ^^^ d
    else if i < 60 then (b &&& c) ||| (b &&& d) ||| (c &&& d)
    else b ^^^ c ^^^ d
  let k :=
    if i < 20 then 0x5A827999
    else if i < 40 then 0x6ED9EBA1
    else if i < 60 then 0x8F1BBCDC
    else 0xCA62C1D6
  let temp := (rotl32 5 a + f + e + k + w.getD i 0) % 2 ^ 32
  (temp, a, rotl32 30 b, c, d)

/-- Process one 64-byte chunk. -/
def sha1Chunk (h : Nat × Nat × Nat × Nat × Nat) (chunk : List Nat) :
    Nat × Nat × Nat × Nat × Nat :=
  let w := extendW 64 (wordsOfChunk chunk)
  let (a, b, c, d, e) := (List.range 80).foldl (sha1Round w) h
  let (h0, h1, h2, h3, h4) := h
  ((h0 + a) % 2 ^ 32, (h1 + b) % 2 ^ 32, (h2 + c) % 2 ^ 32,
   (h3 + d) % 2 ^ 32, (h4 + e) % 2 ^ 32)

/-- SHA-1 digest (20 bytes) of a byte string (`sha1.Sum`). -/
def sha1 (msg : List Nat) : List Nat :=
  let (h0, h1, h2, h3, h4) :=
    (chunksOf 64 (sha1Pad msg)).foldl sha1Chunk
      (0x67452301, 0xEFCDAB89, 0x98BADCFE, 0x10325476, 0xC3D2E1F0)
  u32be h0 ++ u32be h1 ++ u32be h2 ++ u32be h3 ++ u32be h4

/-! ## Bencode data model (`bencode/bencode.go`)

Go's `bencode.Data` is a tagged value (`STRING`/`INTEGER`/`LIST`/`DICT`,
or `INVALID`).  The decoder passes `*Data` pointers around; a `nil` pointer
(which Go produces on some silent-failure paths and which panics when
dereferenced) and a non-nil `Data` with `Type == INVALID` are both modelled
by the constructor `Bdata.invalid` inside containers — the two are
distinguishable in Go only at panic sites that no claim reaches — while the
top-level result of `Decode` keeps the `nil` pointer explicit as an
`Option`.  Go's `map[string]*Data` is modelled as an association list
without duplicate keys, built by `dictInsert` (insert-or-replace, i.e. Go
map assignment). -/

inductive Bdata where
  | invalid : Bdata
  | str (s : List Nat) : Bdata
  | int (n : Int) : Bdata
  | list (l : List Bdata) : Bdata
  | dict (d : List (List Nat × Bdata)) : Bdata

mutual

/-- Decidable equality on `Bdata` (the derive handler does not cover nested
inductives, so it is written out). -/
def bdDecEq : (a b : Bdata) → Decidable (a = b)
  | .invalid, .invalid => .isTrue rfl
  | .str a, .str b =>
    match decEq a b with
    | .isTrue h => .isTrue (h ▸ rfl)
    | .isFalse h => .isFalse fun hh => h (Bdata.str.inj hh)
  | .int a, .int b =>
    match decEq a b with
    | .isTrue h => .isTrue (h ▸ rfl)
    | .isFalse h => .isFalse fun hh => h (Bdata.int.inj hh)
  | .list a, .list b =>
    match blDecEq a b with
    | .isTrue h => .isTrue (h ▸ rfl)
    | .isFalse h => .isFalse fun hh => h (Bdata.list.inj hh)
  | .dict a, .dict b =>
    match beDecEq a b with
    | .isTrue h => .isTrue (h ▸ rfl)
    | .isFalse h => .isFalse fun hh => h (Bdata.dict.inj hh)
  | .invalid, .str _ | .invalid, .int _ | .invalid, .list _ | .invalid, .dict _
  | .str _, .invalid | .str _, .int _ | .str _, .list _ | .str _, .dict _
  | .int _, .invalid | .int _, .str _ | .int _, .list _ | .int _, .dict _
  | .list _, .invalid | .list _, .str _ | .list _, .int _ | .list _, .dict _
  | .dict _, .invalid | .dict _, .str _ | .dict _, .int _ | .dict _, .list _ =>
    .isFalse fun h => nomatch h

def blDecEq : (a b : List Bdata) → Decidable (a = b)
  | [], [] => .isTrue rfl
  | [], _ :: _ => .isFalse fun h => nomatch h
  | _ :: _, [] => .isFalse fun h => nomatch h
  | a :: as, b :: bs =>
    match bdDecEq a b with
    | .isFalse h => .isFalse fun hh => h (List.cons.inj hh).1
    | .isTrue h1 =>
      match blDecEq as bs with
      | .isTrue h2 => .isTrue (h1 ▸ h2 ▸ rfl)
      | .isFalse h => .isFalse fun hh => h (List.cons.inj hh).2

def beDecEq : (a b : List (List Nat × Bdata)) → Decidable (a = b)
  | [], [] => .isTrue rfl
  | [], _ :: _ => .isFalse fun h => nomatch h
  | _ :: _, [] => .isFalse fun h => nomatch h
  | (k, v) :: es, (k', v') :: fs =>
    match decEq k k' with
    | .isFalse h => .isFalse fun hh => h (congrArg Prod.fst (List.cons.inj hh).1)
    | .isTrue h1 =>
      match bdDecEq v v' with
      | .isFalse h => .isFalse fun hh => h (congrArg Prod.snd (List.cons.inj hh).1)
      | .isTrue h2 =>
        match beDecEq es fs with
        | .isTrue h3 => .isTrue (h1 ▸ h2 ▸ h3 ▸ rfl)
        | .isFalse h => .isFalse fun hh => h (List.cons.inj hh).2

end

instance : DecidableEq Bdata := bdDecEq

/-- The error values `bencode.Decode` can produce (`fmt.Errorf` messages in
the Go source).  `outOfFuel` is an artifact of the fuelled embedding; it is
never returned when the fuel exceeds twice the input length, and the
top-level `Decode` always supplies that much. -/
inductive DecodeErr where
  | invalidInteger : DecodeErr
  | invalidList : DecodeErr
  | invalidDictionary : DecodeErr
  | invalidDictionaryKey : DecodeErr
  | invalidStringLength : DecodeErr
  | invalidString : DecodeErr
  | outOfFuel : DecodeErr
  deriving DecidableEq

/-- Go map assignment `dict[k] = v` on an association list: replace the
binding if the key is present, otherwise append it. -/
def dictInsert (d : List (List Nat × Bdata)) (k : List Nat) (v : Bdata) :
    List (List Nat × Bdata) :=
  match d with
  | [] => [(k, v)]
  | (k', v') :: rest => if k' = k then (k, v) :: rest else (k', v') :: dictInsert rest k v

/-- Bytewise lexicographic strict order on byte strings: Go's `<` on
`string`, the order used by `slices.Sort` in `bencode.Encode`. -/
def keyLt : List Nat → List Nat → Bool
  | [], [] => false
  | [], _ :: _ => true
  | _ :: _, [] => false
  | a :: as, b :: bs => if a < b then true else if b < a then false else keyLt as bs

/-- Insertion step of the key sort used by `bencode.Encode` (on pairs of a
key and the already-encoded bytes of its entry). -/
def insertPair (e : List Nat × List Nat) :
    List (List Nat × List Nat) → List (List Nat × List Nat)
  | [] => [e]
  | f :: fs => if keyLt e.1 f.1 then e :: f :: fs else f :: insertPair e fs

/-- Sort `(key, bytes)` pairs by key (the `slices.Sort` of the collected
keys in `bencode.Encode`; keys of a Go map are unique, so any sort that
orders the keys agrees with it). -/
def sortPairs : List (List Nat × List Nat) → List (List Nat × List Nat)
  | [] => []
  | e :: es => insertPair e (sortPairs es)

/-- Concatenate the byte components of an entry list. -/
def joinPairs : List (List Nat × List Nat) → List Nat
  | [] => []
  | e :: es => e.2 ++ joinPairs es

/-! ## `bencode.Decode`

A direct transcription of the Go decoder.  The Go scanning loops become
recursion on a fuel parameter; each loop iteration and each nested `Decode`
call consumes one unit of fuel, and every iteration consumes at least one
input byte, so fuel `2·|input| + 2` is always enough (pattern of the proofs
below).  The triple returned is Go's `(*Data, int, error)`:
the (possibly nil) decoded value, the count of consumed bytes, and the
(possibly nil) error. -/

mutual

def decodeF : Nat → List Nat → Option Bdata × Nat × Option DecodeErr
  | 0, _ => (none, 0, some .outOfFuel)
  | fuel + 1, content =>
    match content with
    | [] => (none, 0, none)
    | b :: _ =>
      if b = 105 then
        -- 'i': scan for 'e'; Go returns the `ParseInt` failure as
        -- `(nil, i+1, nil)` — a nil value with a nil error.
        match findByte 101 (content.drop 1) with
        | some j =>
          match parseInt64 ((content.drop 1).take j) with
          | none => (none, j + 2, none)
          | some v => (some (.int v), j + 2, none)
        | none => (some .invalid, content.length, some .invalidInteger)
      else if b = 108 then
        decodeItems fuel (content.drop 1) [] 1
      else if b = 100 then
        decodeEntries fuel (content.drop 1) [] 1
      else
        -- string: scan for ':'; the length prefix goes through `Atoi`.
        -- Go slices `content[i+1 : i+1+strLen]`, which panics when the
        -- declared length overruns the input; `take` truncates instead,
        -- and no claim exercises that (out-of-bounds) case.
        match findByte 58 content with
        | some j =>
          match parseInt64 (content.take j) with
          | none => (none, j + 1, some .invalidStringLength)
          | some v =>
            (some (.str ((content.drop (j + 1)).take v.toNat)), j + 1 + v.toNat, none)
        | none => (none, content.length, some .invalidString)

/-- The `case 'l'` loop of `bencode.Decode`: `s` is the unread suffix and
`consumed` the absolute index reached so far.  A nil element produced by a
silently-failing inner decode is appended as `.invalid` (Go appends the nil
pointer). -/
def decodeItems (fuel : Nat) (s : List Nat) (acc : List Bdata) (consumed : Nat) :
    Option Bdata × Nat × Option DecodeErr :=
  match fuel with
  | 0 => (none, 0, some .outOfFuel)
  | fuel + 1 =>
    match s with
    | [] => (some (.list acc.reverse), consumed, some .invalidList)
    | b :: _ =>
      if b = 101 then (some (.list acc.reverse), consumed + 1, none)
      else
        match decodeF fuel s with
        | (_, count, some e) => (some (.list acc.reverse), count, some e)
        | (elem, count, none) =>
          decodeItems fuel (s.drop count) (elem.getD .invalid :: acc) (consumed + count)

/-- The `case 'd'` loop of `bencode.Decode`.  A non-string key stops the
loop with `invalidDictionaryKey` (Go panics instead when the key is a nil
pointer; no claim reaches that case).  A nil value is stored as `.invalid`
(Go stores the nil pointer in the map). -/
def decodeEntries (fuel : Nat) (s : List Nat) (acc : List (List Nat × Bdata))
    (consumed : Nat) : Option Bdata × Nat × Option DecodeErr :=
  match fuel with
  | 0 => (none, 0, some .outOfFuel)
  | fuel + 1 =>
    match s with
    | [] => (some (.dict acc), consumed, some .invalidDictionary)
    | b :: _ =>
      if b = 101 then (some (.dict acc), consumed + 1, none)
      else
        match decodeF fuel s with
        | (_, kcount, some e) => (some (.dict acc), kcount, some e)
        | (key, kcount, none) =>
          match key with
          | some (.str ks) =>
            match decodeF fuel (s.drop kcount) with
            | (_, vcount, some e) => (some (.dict acc), vcount, some e)
            | (val, vcount, none) =>
              decodeEntries fuel ((s.drop kcount).drop vcount)
                (dictInsert acc ks (val.getD .invalid)) (consumed + kcount + vcount)
          | _ => (some (.dict acc), kcount, some .invalidDictionaryKey)

end

/-- `bencode.Decode`: the fuelled decoder with always-sufficient fuel. -/
def Decode (c : List Nat) : Option Bdata × Nat × Option DecodeErr :=
  decodeF (2 * c.length + 2) c

/-! ## `bencode.Encode` -/

mutual

/-- `bencode.Encode`.  `INVALID` data encodes to the empty byte slice (the
Go `default` branch).  For a dictionary, Go collects the keys, sorts them,
and encodes `Encode(NewData(key)) ++ Encode(dict[key])` in sorted key
order; equivalently (entries encode independently of their order), each
entry is encoded in place by `encodeEntryList` and the resulting
`(key, bytes)` pairs are sorted by key and concatenated. -/
def Encode : Bdata → List Nat
  | .invalid => []
  | .str s => natDecimal s.length ++ 58 :: s
  | .int n => 105 :: (intDecimal n ++ [101])
  | .list l => 108 :: (encodeItems l ++ [101])
  | .dict d => 100 :: (joinPairs (sortPairs (encodeEntryList d)) ++ [101])

def encodeItems : List Bdata → List Nat
  | [] => []
  | x :: xs => Encode x ++ encodeItems xs

/-- Encode each dictionary entry as `Encode(NewData(key)) ++ Encode(value)`
(the key, a byte string, encodes as `len ':' bytes`), keeping its key for
the sort. -/
def encodeEntryList : List (List Nat × Bdata) → List (List Nat × List Nat)
  | [] => []
  | (k, v) :: es => (k, (natDecimal k.length ++ 58 :: k) ++ Encode v) :: encodeEntryList es

end

/-- `(*Data).ToBytes`, i.e. `Encode` through a possibly-nil pointer (Go
would panic on nil; the claims only apply this to present values). -/
def encodeO : Option Bdata → List Nat
  | none => []
  | some v => Encode v

/-! ## Canonical values

`canonB v` holds when `Encode v` is a canonical bencode encoding and
decoding it recovers `v` exactly: no `invalid` parts, integers within
`int64`, string lengths within `int64`, and dictionary keys strictly
ascending in bytewise lexicographic order (hence unique).  This is the
checkable rendering of the spec's "well-formed encoding with dictionary
keys already in ascending lexicographic byte order". -/

/-- Strictly ascending adjacent keys. -/
def keysSorted : List (List Nat) → Bool
  | [] => true
  | [_] => true
  | a :: b :: t => keyLt a b && keysSorted (b :: t)

mutual

def canonB : Bdata → Bool
  | .invalid => false
  | .str s => decide (s.length < 2 ^ 63)
  | .int n => decide (-2 ^ 63 ≤ n) && decide (n < 2 ^ 63)
  | .list l => canonItems l
  | .dict d => canonEntries d && keysSorted (d.map Prod.fst)

def canonItems : List Bdata → Bool
  | [] => true
  | x :: xs => canonB x && canonItems xs

def canonEntries : List (List Nat × Bdata) → Bool
  | [] => true
  | e :: es => decide (e.1.length < 2 ^ 63) && canonB e.2 && canonEntries es

end

/-! ## Metainfo model (`torrent/torrent.go`)

`TorrentFromBencodeData` walks the decoded bencode tree with unchecked
type assertions (`AsDict`, `AsString`, `AsInt`, `AsList`); any assertion
on data of the wrong kind, any nil-map dereference, the `pieces` slicing
when the blob length is not a multiple of 20, and the per-file division by
a zero `PieceLength` are Go run-time panics, modelled as `none`.  A `nil`
input produces a `nil` torrent in Go; its callers treat that like failure,
and it is also modelled as `none`. -/

structure GFile where
  length : Int
  path : List Nat
  firstPieceIndex : Int
  lastPieceIndex : Int
  deriving DecidableEq

structure GTorrent where
  name : List Nat
  fileList : List GFile
  pieceLength : Int
  pieces : List (List Nat)
  infoHash : List Nat
  length : Int
  isPrivate : Bool
  deriving DecidableEq

/-- Go map lookup on the association list of a decoded dictionary (keys are
unique, so first match is the binding). -/
def lookupD : List (List Nat × Bdata) → List Nat → Option Bdata
  | [], _ => none
  | (k, v) :: rest, key => if k = key then some v else lookupD rest key

def asDict? : Bdata → Option (List (List Nat × Bdata))
  | .dict d => some d
  | _ => none

def asList? : Bdata → Option (List Bdata)
  | .list l => some l
  | _ => none

def asStr? : Bdata → Option (List Nat)
  | .str s => some s
  | _ => none

def asInt? : Bdata → Option Int
  | .int n => some n
  | _ => none

/-- Apply a type guard to an optional dictionary entry: an absent key is
skipped, a present one must satisfy the guard (else Go panics). -/
def optCheck (o : Option Bdata) (f : Bdata → Option Unit) : Option Unit :=
  match o with
  | none => some ()
  | some v => f v

def checkStr (v : Bdata) : Option Unit := (asStr? v).map fun _ => ()

def checkInt (v : Bdata) : Option Unit := (asInt? v).map fun _ => ()

/-- `url-list` handling: a list, every element read with `AsString`. -/
def checkStrList (v : Bdata) : Option Unit := do
  let l ← asList? v
  let _ ← l.mapM asStr?
  some ()

/-- `announce-list` handling: a list of lists of strings. -/
def checkAnnounceList (v : Bdata) : Option Unit := do
  let l ← asList? v
  let _ ← l.mapM checkStrList
  some ()

/-- Join decoded path components with `/` (`file.Path += path.AsString()`,
with a separator between consecutive components). -/
def joinComponents : List Bdata → Option (List Nat)
  | [] => some []
  | [x] => asStr? x
  | x :: xs => do
    let s ← asStr? x
    let r ← joinComponents xs
    some (s ++ 47 :: r)

def sInfo : String := "info"

def sAnnounce : String := "announce"

def sAnnounceList : String := "announce-list"

def sName : String := "name"

def sUrlList : String := "url-list"

def sComment : String := "comment"

def sCreatedBy : String := "created by"

def sCreationDate : String := "creation date"

def sFiles : String := "files"

def sLength : String := "length"

def sPath : String := "path"

def sPieceLength : String := "piece length"

def sPieces : String := "pieces"

def sPrivate : String := "private"

def keyInfo : List Nat := strBytes sInfo
def keyAnnounce : List Nat := strBytes sAnnounce
def keyAnnounceList : List Nat := strBytes sAnnounceList
def keyName : List Nat := strBytes sName
def keyUrlList : List Nat := strBytes sUrlList
def keyComment : List Nat := strBytes sComment
def keyCreatedBy : List Nat := strBytes sCreatedBy
def keyCreationDate : List Nat := strBytes sCreationDate
def keyFiles : List Nat := strBytes sFiles
def keyLength : List Nat := strBytes sLength
def keyPath : List Nat := strBytes sPath
def keyPieceLength : List Nat := strBytes sPieceLength
def keyPieces : List Nat := strBytes sPieces
def keyPrivate : List Nat := strBytes sPrivate

/-- One entry of `info.files`: a dictionary with an integer `length` and an
optional `path` list of string components. -/
def parseFileEntry (v : Bdata) : Option GFile := do
  let fd ← asDict? v
  let n ← match lookupD fd keyLength with
    | some lv => asInt? lv
    | none => none
  let p ← match lookupD fd keyPath with
    | some pv => do
        let comps ← asList? pv
        joinComponents comps
    | none => some []
  some ⟨n, p, 0, 0⟩

/-- The `pieces` blob split into 20-byte hashes, stored as lowercase hex
strings (`fmt.Sprintf("%x", ...)`).  Go's `piecesData[i : i+20]` loop
panics when the blob length is not a multiple of 20. -/
def parsePieces (v : Bdata) : Option (List (List Nat)) := do
  let ps ← asStr? v
  if ps.length % 20 = 0 then some ((chunksOf 20 ps).map hexStr) else none

/-- Per-file piece count: `file.Length / PieceLength`, incremented when the
division has a remainder (Go `int64` truncating division). -/
def pieceCountOf (len P : Int) : Int :=
  len.tdiv P + (if len.tmod P ≠ 0 then 1 else 0)

/-- The piece-index loop at the end of `TorrentFromBencodeData`: each file
gets `[firstPieceIndex, lastPieceIndex]` from a running piece counter that
advances by that file's own (rounded-up) piece count. -/
def assignIndices (P : Int) : List GFile → Int → List GFile
  | [], _ => []
  | f :: fs, idx =>
    let pc := pieceCountOf f.length P
    { f with firstPieceIndex := idx, lastPieceIndex := idx + pc - 1 }
      :: assignIndices P fs (idx + pc)

/-- The field-extraction part of `TorrentFromBencodeData`: everything
between the root/info dictionary accesses and the final piece-index loop.
Returns `(name, file list, piece length, pieces, is-private)`. -/
def parseMetaFields (rootDict : List (List Nat × Bdata)) (info : Bdata) :
    Option (List Nat × List GFile × Int × List (List Nat) × Bool) := do
  let infoDict ← asDict? info
  let _ ← optCheck (lookupD rootDict keyAnnounceList) checkAnnounceList
  let _ ← optCheck (lookupD rootDict keyAnnounce) checkStr
  let name ← match lookupD infoDict keyName with
    | some v => asStr? v
    | none => some []
  let _ ← optCheck (lookupD rootDict keyUrlList) checkStrList
  let _ ← optCheck (lookupD rootDict keyComment) checkStr
  let _ ← optCheck (lookupD rootDict keyCreatedBy) checkStr
  let _ ← optCheck (lookupD rootDict keyCreationDate) checkInt
  let fl ← match lookupD infoDict keyFiles with
    | some v => do
        let l ← asList? v
        l.mapM parseFileEntry
    | none => do
        -- single-file mode: `length` is read with `AsInt` (panic if absent
        -- or not an integer); the file path is the torrent name.
        let n ← match lookupD infoDict keyLength with
          | some lv => asInt? lv
          | none => none
        some [⟨n, name, 0, 0⟩]
  let pieceLength ← match lookupD infoDict keyPieceLength with
    | some v => asInt? v
    | none => some 0
  let pieces ← match lookupD infoDict keyPieces with
    | some v => parsePieces v
    | none => some []
  let isPriv ← match lookupD infoDict keyPrivate with
    | some v => (asInt? v).map fun n => n == 1
    | none => some false
  some (name, fl, pieceLength, pieces, isPriv)

/-- `torrent.TorrentFromBencodeData`.  `torrent.Length` is the sum of the
file lengths (accumulated over the files list in multi-file mode, read
directly — the same value — in single-file mode); the info-hash is the
SHA-1 of `Encode` applied to the *decoded* info value (`ToBytes`).  The
final piece-index loop divides by `PieceLength` once per file, a run-time
panic when the file list is non-empty and `PieceLength` is zero. -/
def TorrentFromBencodeData (data : Option Bdata) : Option GTorrent := do
  let root ← data
  let rootDict ← asDict? root
  let info ← lookupD rootDict keyInfo
  let (name, fl, pieceLength, pieces, isPriv) ← parseMetaFields rootDict info
  if fl ≠ [] ∧ pieceLength = 0 then none
  else some ⟨name, assignIndices pieceLength fl 0, pieceLength, pieces,
    sha1 (Encode info), (fl.map GFile.length).sum, isPriv⟩

/-- `torrent.TorrentFromBytes`: decode, fail on a decode error, convert. -/
def TorrentFromBytes (c : List Nat) : Option GTorrent :=
  match Decode c with
  | (_, _, some _) => none
  | (d, _, none) => TorrentFromBencodeData d

/-! ## Peer-wire protocol (`torrent/protocol.go`) -/

/-- A peer-wire message: a type byte and a payload.  `MsgKeepAlive` is the
sentinel 255. -/
structure Message where
  type : Nat
  payload : List Nat

/-- `Message.Serialize`: `length(u32 BE) || id(u8) || payload`; keep-alive
serializes as four zero bytes. -/
def Message.Serialize (m : Message) : List Nat :=
  if m.type = 255 then [0, 0, 0, 0]
  else u32be (1 + m.payload.length) ++ m.type :: m.payload

/-- `FormatRequest`: three big-endian `u32` fields. -/
def FormatRequest (index beginPos len : Nat) : List Nat :=
  u32be index ++ u32be beginPos ++ u32be len

/-- `Bitfield.HasPiece`.  The Go `index` is a signed `int`; `/` and `%` are
Go's truncating division (`Int.tdiv`/`Int.tmod`). -/
def HasPiece (bf : List Nat) (index : Int) : Bool :=
  let byteIndex := index.tdiv 8
  let offset := index.tmod 8
  if byteIndex < 0 ∨ (bf.length : Int) ≤ byteIndex then false
  else ((bf.getD byteIndex.toNat 0) >>> (7 - offset).toNat) &&& 1 != 0

/-- `Bitfield.SetPiece`: `bf[byteIndex] |= byte(1) << (7 - offset)` (the
shifted byte is reduced mod 256, as the Go `byte` shift is). -/
def SetPiece (bf : List Nat) (index : Int) : List Nat :=
  let byteIndex := index.tdiv 8
  let offset := index.tmod 8
  if byteIndex < 0 ∨ (bf.length : Int) ≤ byteIndex then bf
  else bf.set byteIndex.toNat
    ((bf.getD byteIndex.toNat 0) ||| ((1 <<< (7 - offset).toNat) % 256))

/-! ## Download write-back (`download_manager.go`, `writePiece`)

Files on disk are modelled as byte lists; `writeAt` is seek-and-write.
`writePieceAux` carries the declared file lengths (`tor.FileList`) and the
current contents side by side, with Go's `currentOffset` accumulator. -/

/-- Seek to `off` and overwrite with `data` (in-bounds in every use the
orchestrator makes: files are pre-allocated at their declared lengths). -/
def writeAt (f : List Nat) (off : Nat) (data : List Nat) : List Nat :=
  f.take off ++ data ++ f.drop (off + data.length)

/-- The file loop of `writePiece`: for each file overlapping the piece's
global byte range, write the overlapping slice of `data` at the file-local
offset. -/
def writePieceAux (pOff : Nat) (data : List Nat) :
    List Nat → List (List Nat) → Nat → List (List Nat)
  | [], files, _ => files
  | _ :: _, [], _ => []
  | L :: lens, f :: fs, curOff =>
    let fileStart := curOff
    let fileEnd := curOff + L
    let f' :=
      if pOff < fileEnd ∧ fileStart < pOff + data.length then
        let pieceStartInFile := if fileStart < pOff then pOff - fileStart else 0
        let fileStartInPiece := if pOff < fileStart then fileStart - pOff else 0
        let bytesToWrite :=
          if fileEnd < pOff + data.length then fileEnd - (pOff + fileStartInPiece)
          else data.length - fileStartInPiece
        writeAt f pieceStartInFile ((data.drop fileStartInPiece).take bytesToWrite)
      else f
    f' :: writePieceAux pOff data lens fs (curOff + L)

/-- `writePiece` for piece `pieceIndex`: the global offset is
`pieceIndex * PieceLength`. -/
def writePiece (P pieceIndex : Nat) (data : List Nat) (lens : List Nat)
    (files : List (List Nat)) : List (List Nat) :=
  writePieceAux (pieceIndex * P) data lens files 0

/-- `ceil(total / P)`, the piece count of a torrent. -/
def numPiecesOf (total P : Nat) : Nat := (total + P - 1) / P

/-- Split `buffer` into `P`-sized pieces (the last possibly shorter) and
run `writePiece` for every piece index. -/
def writeAllPieces (P : Nat) (buffer : List Nat) (lens : List Nat)
    (files : List (List Nat)) : List (List Nat) :=
  (List.range (numPiecesOf buffer.length P)).foldl
    (fun fs i => writePiece P i ((buffer.drop (i * P)).take P) lens fs) files

/-- Pointwise overlay of `data` on the window `[pOff, pOff + |data|)` of a
global byte stream, `base` being the global offset of the stream's head:
the functional description of one piece write, against which the per-file
loop of `writePiece` is verified. -/
def clipWrite (s : List Nat) (base pOff : Nat) (data : List Nat) : List Nat :=
  match s with
  | [] => []
  | b :: t =>
    (if pOff ≤ base ∧ base < pOff + data.length then data.getD (base - pOff) 0 else b)
      :: clipWrite t (base + 1) pOff data

/-- The parsed form of the C6 metainfo, used to instantiate the amended
theorem. -/
def c6torrent : GTorrent :=
  ⟨[110], [⟨1, [97], 0, 0⟩, ⟨1, [98], 1, 1⟩], 2,
   [[55, 56, 55, 56, 55, 56, 55, 56, 55, 56, 55, 56, 55, 56, 55, 56, 55, 56,
     55, 56, 55, 56, 55, 56, 55, 56, 55, 56, 55, 56, 55, 56, 55, 56, 55, 56,
     55, 56, 55, 56]],
   [125, 21, 107, 91, 179, 138, 159, 189, 228, 208, 233, 16, 206, 56, 210,
    188, 55, 189, 239, 26], 2, false⟩

/-! ## Verifier (`torrent/torrent.go`, `VerifyTorrent`)

The piece-hashing loop of `VerifyTorrent`, with file I/O replaced by the
chunk lists an `f.Read` loop with a `pieceLength`-sized buffer delivers:
full-size chunks and a final shorter one.  The `piece` buffer and
`pieceIndex` thread through the files exactly as in the Go code, including
the initial `make([]byte, pieceLength)` (a zero-filled buffer of full
length) and the `break` that carries a partial trailing chunk of a
non-last file into the next file. -/

inductive VerifyResult where
  | ok : VerifyResult
  | corrupted (i : Nat) : VerifyResult
  | indexPanic : VerifyResult
  deriving DecidableEq

inductive VerifyErr where
  | corrupted (i : Nat) : VerifyErr
  | indexPanic : VerifyErr

/-- Hash the assembled `piece` and compare with `pieceHashes[pieceIndex]`
(both sides hex strings).  Reading past the end of `pieceHashes` is a Go
index-out-of-range panic. -/
def checkPieceHash (hashes : List (List Nat)) (piece : List Nat) (idx : Nat) :
    Except VerifyErr Nat :=
  match hashes.get? idx with
  | none => .error .indexPanic
  | some h => if hexStr (sha1 piece) = h then .ok (idx + 1) else .error (.corrupted idx)

/-- The read loop over one file's chunks; returns the carried
`(piece, pieceIndex)` state for the next file. -/
def verifyFileChunks (hashes : List (List Nat)) (P : Nat) (isLast : Bool) :
    List (List Nat) → List Nat → Nat → Except VerifyErr (List Nat × Nat)
  | [], piece, idx => .ok (piece, idx)
  | chunk :: rest, piece, idx =>
    if chunk.length < P then
      let piece' := if piece.length < P then piece ++ chunk else chunk
      if isLast then
        match checkPieceHash hashes piece' idx with
        | .error e => .error e
        | .ok idx' =>
          if idx' = hashes.length then .ok (piece', idx')
          else verifyFileChunks hashes P isLast rest piece' idx'
      else .ok (piece', idx)
    else
      match checkPieceHash hashes chunk idx with
      | .error e => .error e
      | .ok idx' =>
        if idx' = hashes.length then .ok (chunk, idx')
        else verifyFileChunks hashes P isLast rest chunk idx'

/-- The file loop of `VerifyTorrent`. -/
def verifyFilesGo (hashes : List (List Nat)) (P : Nat) :
    List (List Nat) → List Nat → Nat → VerifyResult
  | [], _, _ => .ok
  | f :: fs, piece, idx =>
    match verifyFileChunks hashes P fs.isEmpty (chunksOf P f) piece idx with
    | .error (.corrupted i) => .corrupted i
    | .error .indexPanic => .indexPanic
    | .ok (piece', idx') => verifyFilesGo hashes P fs piece' idx'

/-- The integrity-checking half of `VerifyTorrent`, over the on-disk
contents of the torrent's files in list order. -/
def VerifyTorrentPure (P : Nat) (hashes : List (List Nat))
    (files : List (List Nat)) : VerifyResult :=
  verifyFilesGo hashes P files (List.replicate P 0) 0

/-! ## Download orchestrator state (`startDownloadFromPeers`)

The shared state a worker mutates under the mutex: the `downloaded`
bit-array and the piece queue.  Every queue interaction of the worker loop
is one step: skipping an already-done index, re-enqueueing after a failed
download / hash mismatch / failed write, or marking a piece done.  No step
ever resets a `downloaded` entry. -/

structure DMState where
  downloaded : List Bool
  queue : List Nat
  deriving DecidableEq

inductive DMStep : DMState → DMState → Prop
  | skipDone (d : List Bool) (i : Nat) (q : List Nat) :
      d.getD i false = true → DMStep ⟨d, i :: q⟩ ⟨d, q⟩
  | retryPiece (d : List Bool) (i : Nat) (q : List Nat) :
      DMStep ⟨d, i :: q⟩ ⟨d, q ++ [i]⟩
  | completePiece (d : List Bool) (i : Nat) (q : List Nat) :
      DMStep ⟨d, i :: q⟩ ⟨d.set i true, q⟩

/-- The completed-piece count the progress reporter computes under the
mutex. -/
def completedCount (d : List Bool) : Nat := d.count true

/-! ## Concrete inputs used by the claims -/

def sI42e : String := "i42e"

def sIneg0e : String := "i-0e"

def sI03e : String := "i03e"

def sIabce : String := "iabce"

/-- A well-formed metainfo whose info dictionary is *not* canonically
encoded: the integer `3` is written `i03e`. -/
def c1str : String := "d4:infod6:lengthi03e12:piece lengthi1eee"

/-- The exact byte slice of `c1str` that encodes its info dictionary. -/
def c1slice : String := "d6:lengthi03e12:piece lengthi1ee"

def c1prefix : String := "d4:info"

def c1bytes : List Nat := strBytes c1str

def c1sliceBytes : List Nat := strBytes c1slice

/-- A canonical single-file info dictionary, used as the C1 witness. -/
def c1v : Bdata := .dict [(strBytes sLength, .int 5), (strBytes sPieceLength, .int 2)]

/-- A metainfo with two one-byte files and `piece length` 2 (total length 2,
one piece), used against claim C6. -/
def c6str : String :=
  "d4:infod5:filesld6:lengthi1e4:pathl1:aeed6:lengthi1e4:pathl1:beee4:name1:n12:piece lengthi2e6:pieces20:xxxxxxxxxxxxxxxxxxxxee"

def c6bytes : List Nat := strBytes c6str

/-- On-disk contents for claim C5: files of lengths 1 and 3 whose
concatenation is the stream `[97, 98, 99, 100]`. -/
def c5files : List (List Nat) := [[97], [98, 99, 100]]

/-- The *correct* piece hashes of that stream for `piece_length = 2`:
hex-encoded SHA-1 of each 2-byte window. -/
def c5hashes : List (List Nat) :=
  (chunksOf 2 [97, 98, 99, 100]).map fun w => hexStr (sha1 w)

def sCow : String := "cow"

def sMoo : String := "moo"

def sSpam : String := "spam"

def sEggs : String := "eggs"

/-- The canonical dictionary `d3:cow3:moo4:spam4:eggse` of the spec's
bencode scenarios, used as the C4 witness. -/
def c4v : Bdata :=
  .dict [(strBytes sCow, .str (strBytes sMoo)), (strBytes sSpam, .str (strBytes sEggs))]

/-- The concatenated entry encoding, in entry order. -/
def entriesBytes : List (List Nat × Bdata) → List Nat
  | [] => []
  | (k, v) :: es => Encode (.str k) ++ (Encode v ++ entriesBytes es)

def sCanonDict : String := "d3:cow3:moo4:spam4:eggse"

/-- The parse of the canonical single-file metainfo built from `c1v`. -/
def c1torrent : GTorrent :=
  ⟨[], [⟨5, [], 0, 2⟩], 2, [],
   [132, 188, 165, 127, 247, 48, 109, 238, 20, 152, 161, 157, 53, 240, 217,
    31, 59, 134, 61, 89], 5, false⟩

/-! # Theorems

First the supporting lemmas, then one theorem per claim (with its witness
or counterexample where required). -/

/-- Claim C8: peer-wire message serialization produces exactly the framed
bytes `length(u32 BE) || id(u8) || payload`: `have(5)` serializes as
`00 00 00 05 04 00 00 00 05`, keep-alive as `00 00 00 00`, and a request
for index 3, begin 0, length 16384 as
`00 00 00 0D 06 00 00 00 03 00 00 00 00 00 00 40 00`. -/
theorem c8_message_framing :
    Message.Serialize ⟨4, u32be 5⟩ = [0, 0, 0, 5, 4, 0, 0, 0, 5] ∧
    Message.Serialize ⟨255, []⟩ = [0, 0, 0, 0] ∧
    Message.Serialize ⟨6, FormatRequest 3 0 16384⟩ =
      [0, 0, 0, 13, 6, 0, 0, 0, 3, 0, 0, 0, 0, 0, 0, 64, 0] := by
  decide

/-- Claim C10: `bencode.Decode` of the empty byte slice returns a nil
value, zero bytes consumed, and a nil error — the same nil error a
successful decode (here of `i42e`) returns, so a caller checking only the
error cannot tell the two apart. -/
theorem c10_empty_decode :
    Decode [] = (none, 0, none) ∧
    (Decode (strBytes sI42e)).2.2 = none ∧ (Decode (strBytes sI42e)).1 ≠ none := by
  decide

/-- Claim C3 (the code, at the claim's own inputs): `Decode "i-0e"` returns
the integer 0 with a nil error, `Decode "i03e"` returns 3 with a nil error,
and a non-numeric digit sequence (`"iabce"`) returns a nil value *and* a
nil error — the decoder never rejects these, contrary to the claim. -/
theorem c3_integer_decode_silent :
    Decode (strBytes sIneg0e) = (some (.int 0), 4, none) ∧
    Decode (strBytes sI03e) = (some (.int 3), 4, none) ∧
    Decode (strBytes sIabce) = (none, 5, none) := by
  decide

/-- Claim C5 (the code, at a correct multi-file layout): with files of
lengths 1 and 3, `piece_length = 2`, and the *correct* stream piece hashes,
the verifier reports `piece 0 is corrupted` — the carried 1-byte chunk of
the first file is discarded when the full-size read from the second file
overwrites the piece buffer, so the spanning window is never hashed. -/
theorem c5_spanning_piece_misverified :
    c5hashes = (chunksOf 2 ([97] ++ [98, 99, 100])).map (fun w => hexStr (sha1 w)) ∧
    VerifyTorrentPure 2 c5hashes c5files = .corrupted 0 := by
  decide

/-- Claim C7 counterexample: for a 10-piece torrent the bitfield has
`ceil(10/8) = 2` bytes; index 10 is out of range, yet `SetPiece` flips a
spare bit of byte 1 (the bitfield changes) and `HasPiece` then reads that
index back as `true`. -/
theorem c7_counterexample :
    SetPiece [0, 0] 10 = [0, 32] ∧ SetPiece [0, 0] 10 ≠ [0, 0] ∧
    HasPiece (SetPiece [0, 0] 10) 10 = true := by
  decide

/-- Claim C6 counterexample: parsing a metainfo with two one-byte files and
`piece_length = 2` (total 2 bytes, 1 piece) gives the second file
`firstPieceIndex = lastPieceIndex = 1`, but the claim's formulas require
`firstPieceIndex = ⌊1/2⌋ = 0` and `lastPieceIndex < len(pieces) = 1`. -/
theorem c6_counterexample :
    (TorrentFromBytes c6bytes).map
        (fun t => t.fileList.map fun f => (f.firstPieceIndex, f.lastPieceIndex)) =
      some [(0, 0), (1, 1)] ∧
    (TorrentFromBytes c6bytes).map (fun t => (t.fileList.map GFile.length,
      t.pieceLength, (t.pieces.length : Int))) = some ([1, 1], 2, 1) ∧
    ¬ ((1 : Int) = Int.tdiv 1 2 ∧ (1 : Int) < 1) := by
  refine ⟨by decide, by decide, by decide⟩

/-- Claim C1 counterexample: `c1bytes` is a well-formed metainfo whose info
dictionary occupies exactly the slice `c1sliceBytes` (first conjunct), the
parse succeeds, yet the computed info-hash differs from the SHA-1 of that
slice — the code hashes a canonical re-encoding (`i03e` becomes `i3e`), not
the original bytes. -/
theorem c1_infohash_differs_from_slice_hash :
    c1bytes = strBytes c1prefix ++ c1sliceBytes ++ [101] ∧
    TorrentFromBytes c1bytes ≠ none ∧
    (TorrentFromBytes c1bytes).map GTorrent.infoHash ≠ some (sha1 c1sliceBytes) := by
  refine ⟨by decide, by decide, by decide⟩

/-! ### C9: the orchestrator never un-marks a downloaded piece -/

/-- Setting one entry to `true` preserves every entry already `true`. -/
theorem getD_set_true_of_getD_true (d : List Bool) (i j : Nat)
    (h : d.getD j false = true) : (d.set i true).getD j false = true := by
  rw [List.getD_eq_getElem?_getD] at h ⊢
  rw [List.getElem?_set]
  by_cases hij : i = j
  · subst hij
    by_cases hlen : i < d.length
    · simp [hlen]
    · rw [List.getElem?_eq_none (by omega)] at h
      simp at h
  · simp [hij, h]

/-- Setting one entry to `true` cannot decrease the number of `true`s. -/
theorem count_true_le_count_set_true (d : List Bool) (i : Nat) :
    d.count true ≤ (d.set i true).count true := by
  by_cases h : i < d.length
  · rw [List.count_set _ _ _ _ h]
    have h1 : (if (d[i] == true) = true then 1 else 0) ≤ 1 := by split <;> omega
    have h2 : (if ((true : Bool) == true) = true then 1 else 0) = 1 := rfl
    rw [h2]
    omega
  · rw [List.set_eq_of_length_le (by omega)]

/-- Single-step form of C9: no worker transition resets a `downloaded`
entry or lowers the completed count. -/
theorem dmStep_mono {a b : DMState} (h : DMStep a b) :
    (∀ i, a.downloaded.getD i false = true → b.downloaded.getD i false = true) ∧
    completedCount a.downloaded ≤ completedCount b.downloaded := by
  cases h with
  | skipDone d i q hd => exact ⟨fun _ h => h, le_refl _⟩
  | retryPiece d i q => exact ⟨fun _ h => h, le_refl _⟩
  | completePiece d i q =>
    exact ⟨fun j hj => getD_set_true_of_getD_true d i j hj,
      count_true_le_count_set_true d i⟩

/-- Claim C9: along any run of the orchestrator's step relation, a piece
marked `downloaded` stays `downloaded`, and the completed-piece count the
reporter observes is monotonically non-decreasing. -/
theorem c9_done_pieces_persist (s s' : DMState)
    (h : Relation.ReflTransGen DMStep s s') :
    (∀ i, s.downloaded.getD i false = true → s'.downloaded.getD i false = true) ∧
    completedCount s.downloaded ≤ completedCount s'.downloaded := by
  induction h with
  | refl => exact ⟨fun _ h => h, le_refl _⟩
  | tail _hab hbc ih =>
    exact ⟨fun i hi => (dmStep_mono hbc).1 i (ih.1 i hi),
      le_trans ih.2 (dmStep_mono hbc).2⟩

/-- Witness for C9 at a concrete one-step run: the worker completes piece 0
and the count does not decrease. -/
theorem c9_witness :
    completedCount [false] ≤ completedCount [true] ∧
    ([true] : List Bool).getD 0 false = true :=
  have h := c9_done_pieces_persist ⟨[false], [0]⟩ ⟨[true], []⟩
    (Relation.ReflTransGen.single (DMStep.completePiece [false] 0 []))
  ⟨h.2, by decide⟩

/-- `getD` after `set` at the same (in-range) index reads the new value. -/
theorem getD_set_self (l : List Nat) (b y : Nat) (h : b < l.length) :
    (l.set b y).getD b 0 = y := by
  rw [List.getD_eq_getElem?_getD, List.getElem?_set]
  simp [h]

/-- Writing back the value already stored leaves the list unchanged. -/
theorem set_getD_self (l : List Nat) (b : Nat) (h : b < l.length) :
    l.set b (l.getD b 0) = l := by
  apply List.ext_getElem?
  intro j
  rw [List.getElem?_set]
  by_cases hbj : b = j
  · subst hbj
    rw [List.getD_eq_getElem?_getD, List.getElem?_eq_getElem h]
    simp [h]
  · simp [hbj]

/-- An in-range `getD` is an element of the list. -/
theorem getD_mem_of_lt (l : List Nat) (b d : Nat) (h : b < l.length) :
    l.getD b d ∈ l := by
  rw [List.getD_eq_getElem?_getD, List.getElem?_eq_getElem h]
  exact List.getElem_mem h

/-- Or-ing in bit `s` makes bit `s` read back as set. -/
theorem lor_pow_shift_bit (x s : Nat) : ((x ||| 2 ^ s) >>> s) &&& 1 ≠ 0 := by
  have h1 : (x ||| 2 ^ s).testBit s = true := by
    rw [Nat.testBit_lor]
    simp [Nat.testBit_two_pow_self]
  rw [Nat.testBit_to_div_mod] at h1
  rw [Nat.shiftRight_eq_div_pow, Nat.and_one_is_mod]
  simp only [decide_eq_true_eq] at h1
  omega

/-- Claim C7, amended: with a byte-valued bitfield of `ceil(n/8)` bytes,
`HasPiece` after `SetPiece` is true for every in-range index; every
negative index and every index at or beyond `8·len(bf)` reads false and
its write is a no-op; and the bit layout is MSB-first (pieces {0, 7, 8} of
a 10-piece torrent give bytes `[0x81, 0x80]`).  (Indices in
`[n, 8·ceil(n/8))` are *not* covered by the no-op clause: they address
spare bits — see the counterexample.) -/
theorem c7_bitfield_semantics (bf : List Nat) (n : Nat) (i : Int)
    (hbytes : ∀ b ∈ bf, b < 256) :
    (bf.length = (n + 7) / 8 → 0 ≤ i → i < (n : Int) → HasPiece (SetPiece bf i) i = true) ∧
    (i < 0 ∨ (8 * bf.length : Int) ≤ i → HasPiece bf i = false ∧ SetPiece bf i = bf) ∧
    SetPiece (SetPiece (SetPiece (List.replicate 2 0) 0) 7) 8 = [129, 128] := by
  refine ⟨?_, ?_, by decide⟩
  · intro hlen h0 hn
    obtain ⟨m, rfl⟩ := Int.eq_ofNat_of_zero_le h0
    have hmn : m < n := by exact_mod_cast hn
    have hdiv : m / 8 < bf.length := by rw [hlen]; omega
    have htd : ((m : Int)).tdiv 8 = ((m / 8 : Nat) : Int) := rfl
    have htm : ((m : Int)).tmod 8 = ((m % 8 : Nat) : Int) := rfl
    have hs : ((7 : Int) - ((m % 8 : Nat) : Int)).toNat = 7 - m % 8 := by omega
    have hguard : ¬(((m / 8 : Nat) : Int) < 0 ∨ (bf.length : Int) ≤ ((m / 8 : Nat) : Int)) := by
      push_neg
      constructor
      · omega
      · omega
    simp only [SetPiece, HasPiece, htd, htm, hs, Int.toNat_ofNat]
    simp only [if_neg hguard]
    simp only [List.length_set]
    simp only [if_neg hguard]
    rw [getD_set_self _ _ _ hdiv]
    have hshift : (1 <<< (7 - m % 8)) % 256 = 2 ^ (7 - m % 8) := by
      rw [Nat.shiftLeft_eq, one_mul]
      apply Nat.mod_eq_of_lt
      have h27 : (2 : Nat) ^ (7 - m % 8) ≤ 2 ^ 7 := Nat.pow_le_pow_right (by omega) (by omega)
      omega
    rw [hshift, bne_iff_ne]
    exact lor_pow_shift_bit _ _
  · intro hcase
    cases i with
    | ofNat m =>
      simp only [Int.ofNat_eq_coe] at hcase ⊢
      have hm : 8 * bf.length ≤ m := by
        rcases hcase with h | h
        · omega
        · exact_mod_cast h
      have htd : ((m : Int)).tdiv 8 = ((m / 8 : Nat) : Int) := rfl
      have hguard : (((m / 8 : Nat) : Int) < 0 ∨ (bf.length : Int) ≤ ((m / 8 : Nat) : Int)) := by
        right
        have : bf.length ≤ m / 8 := by omega
        exact_mod_cast this
      constructor
      · simp only [HasPiece, htd]
        rw [if_pos hguard]
      · simp only [SetPiece, htd]
        rw [if_pos hguard]
    | negSucc m =>
      have htd : (Int.negSucc m).tdiv 8 = -(((m + 1) / 8 : Nat) : Int) := rfl
      have htm : (Int.negSucc m).tmod 8 = -(((m + 1) % 8 : Nat) : Int) := rfl
      by_cases h8 : 8 ≤ m + 1
      · have hguard : (-(((m + 1) / 8 : Nat) : Int) < 0 ∨
            (bf.length : Int) ≤ -(((m + 1) / 8 : Nat) : Int)) := by
          left
          omega
        constructor
        · simp only [HasPiece, htd]
          rw [if_pos hguard]
        · simp only [SetPiece, htd]
          rw [if_pos hguard]
      · -- `-7 ≤ i ≤ -1`: byteIndex is 0, the shift amount is at least 8
        have hz : ((m + 1) / 8 : Nat) = 0 := by omega
        rcases bf with _ | ⟨b0, rest⟩
        · have hguard : (-(((m + 1) / 8 : Nat) : Int) < 0 ∨
              ((List.length ([] : List Nat)) : Int) ≤ -(((m + 1) / 8 : Nat) : Int)) := by
            right
            rw [hz]
            simp
          constructor
          · simp only [HasPiece, htd]
            rw [if_pos hguard]
          · simp only [SetPiece, htd]
            rw [if_pos hguard]
        · have hx : b0 < 256 := hbytes b0 (by simp)
          have hguard : ¬(-(((m + 1) / 8 : Nat) : Int) < 0 ∨
              ((b0 :: rest).length : Int) ≤ -(((m + 1) / 8 : Nat) : Int)) := by
            push_neg
            constructor
            · omega
            · simp only [List.length_cons]
              omega
          have hs : ((7 : Int) - -(((m + 1) % 8 : Nat) : Int)).toNat = 8 + m := by omega
          have htn : (-(((m + 1) / 8 : Nat) : Int)).toNat = 0 := by omega
          have hsh : b0 >>> (8 + m) = 0 := by
            rw [Nat.shiftRight_eq_div_pow]
            apply Nat.div_eq_of_lt
            have : (256 : Nat) ≤ 2 ^ (8 + m) := by
              have : (2 : Nat) ^ 8 ≤ 2 ^ (8 + m) := Nat.pow_le_pow_right (by omega) (by omega)
              omega
            omega
          constructor
          · simp only [HasPiece, htd, htm, hs, htn]
            rw [if_neg hguard]
            show ((List.getD (b0 :: rest) 0 0 >>> (8 + m)) &&& 1 != 0) = false
            show ((b0 >>> (8 + m)) &&& 1 != 0) = false
            rw [hsh]
            rfl
          · simp only [SetPiece, htd, htm, hs, htn]
            rw [if_neg hguard]
            show List.set (b0 :: rest) 0 (List.getD (b0 :: rest) 0 0 ||| (1 <<< (8 + m)) % 256) = _
            have hmod : (1 <<< (8 + m)) % 256 = 0 := by
              rw [Nat.shiftLeft_eq, one_mul, pow_add]
              show (2 ^ 8 * 2 ^ m) % 256 = 0
              exact Nat.mul_mod_right _ _
            rw [hmod]
            show List.set (b0 :: rest) 0 (b0 ||| 0) = _
            rw [Nat.or_zero]
            rfl

/-- Witness for C7 at concrete inputs: index 3 of a 10-piece torrent reads
back after a set; index `-3` reads false and its write is a no-op. -/
theorem c7_bitfield_witness :
    HasPiece (SetPiece [0, 0] 3) 3 = true ∧
    HasPiece [0, 0] (-3) = false ∧ SetPiece [0, 0] (-3) = [0, 0] :=
  ⟨(c7_bitfield_semantics [0, 0] 10 3 (by decide)).1 (by decide) (by decide) (by decide),
   ((c7_bitfield_semantics [0, 0] 10 (-3) (by decide)).2.1 (Or.inl (by decide))).1,
   ((c7_bitfield_semantics [0, 0] 10 (-3) (by decide)).2.1 (Or.inl (by decide))).2⟩

/-- Structure of any successfully parsed torrent: its field equations in
terms of the parsed components. -/
theorem tfbd_shape (data : Option Bdata) (t : GTorrent)
    (h : TorrentFromBencodeData data = some t) :
    ∃ root rootDict info name fl pieceLength pieces isPriv,
      data = some root ∧ asDict? root = some rootDict ∧
      lookupD rootDict keyInfo = some info ∧
      parseMetaFields rootDict info = some (name, fl, pieceLength, pieces, isPriv) ∧
      ¬(fl ≠ [] ∧ pieceLength = 0) ∧
      t = ⟨name, assignIndices pieceLength fl 0, pieceLength, pieces,
        sha1 (Encode info), (fl.map GFile.length).sum, isPriv⟩ := by
  unfold TorrentFromBencodeData at h
  cases data with
  | none => simp at h
  | some root =>
    simp only [Option.bind_eq_bind, Option.some_bind] at h
    rcases h1 : asDict? root with _ | rootDict <;> rw [h1] at h
    · simp at h
    · simp only [Option.some_bind] at h
      rcases h2 : lookupD rootDict keyInfo with _ | info <;> rw [h2] at h
      · simp at h
      · simp only [Option.some_bind] at h
        rcases h3 : parseMetaFields rootDict info with _ | ⟨name, fl, pieceLength, pieces, isPriv⟩ <;>
          rw [h3] at h
        · simp at h
        · simp only [Option.some_bind] at h
          split at h
          · simp at h
          · rename_i hcond
            refine ⟨root, rootDict, info, name, fl, pieceLength, pieces, isPriv,
              rfl, h1, h2, h3, hcond, ?_⟩
            exact (Option.some.inj h).symm

end Gtor
namespace Gtor

/-- Per-file induction for the piece-index loop: the entry at position `i`
has `firstPieceIndex = start + sum of the piece counts of the preceding
files` and `lastPieceIndex = firstPieceIndex + own piece count - 1`. -/
theorem assignIndices_spec (P : Int) :
    ∀ (fl : List GFile) (start : Int) (i : Nat) (f : GFile),
      (assignIndices P fl start)[i]? = some f →
      f.firstPieceIndex = start +
        (((assignIndices P fl start).take i).map fun g => pieceCountOf g.length P).sum ∧
      f.lastPieceIndex = f.firstPieceIndex + pieceCountOf f.length P - 1
  | [], start, i, f => by simp [assignIndices]
  | g :: gs, start, 0, f => by
    intro h
    simp only [assignIndices, List.getElem?_cons_zero, Option.some.injEq] at h
    subst h
    simp
  | g :: gs, start, i + 1, f => by
    intro h
    simp only [assignIndices, List.getElem?_cons_succ] at h
    have ih := assignIndices_spec P gs (start + pieceCountOf g.length P) i f h
    simp only [assignIndices, List.take_succ_cons, List.map_cons, List.sum_cons]
    refine ⟨?_, ih.2⟩
    rw [ih.1]
    show _ = start + (pieceCountOf g.length P + _)
    omega

/-- Claim C6, amended: in every parsed torrent, each file's recorded range
is produced by the running per-file counter: `firstPieceIndex` is the sum
of `ceil(length / pieceLength)` (Go truncating arithmetic, `pieceCountOf`)
over the preceding files, and `lastPieceIndex` is `firstPieceIndex` plus
the file's own piece count minus one. -/
theorem c6_piece_index_ranges (data : Option Bdata) (t : GTorrent) (i : Nat) (f : GFile)
    (h : TorrentFromBencodeData data = some t) (hf : t.fileList[i]? = some f) :
    f.firstPieceIndex =
      ((t.fileList.take i).map fun g => pieceCountOf g.length t.pieceLength).sum ∧
    f.lastPieceIndex = f.firstPieceIndex + pieceCountOf f.length t.pieceLength - 1 := by
  obtain ⟨root, rootDict, info, name, fl, pl, pieces, priv, _, _, _, _, _, ht⟩ :=
    tfbd_shape data t h
  subst ht
  have hspec := assignIndices_spec pl fl 0 i f (by simpa using hf)
  simpa using hspec

/-- Witness for the amended C6 at the concrete two-file metainfo: the
second file's range is `(1, 1)`, matching the per-file counter formulas. -/
theorem c6_piece_index_witness :
    c6torrent.fileList[1]? = some ⟨1, [98], 1, 1⟩ ∧
    (1 : Int) = ((c6torrent.fileList.take 1).map
      fun g => pieceCountOf g.length c6torrent.pieceLength).sum ∧
    (1 : Int) = 1 + pieceCountOf 1 c6torrent.pieceLength - 1 := by
  have h := c6_piece_index_ranges (Decode c6bytes).1 c6torrent 1 ⟨1, [98], 1, 1⟩
    (by decide) (by decide)
  exact ⟨by decide, h.1, h.2⟩

/-! ### Decimal digits -/

/-- Every byte `natDecimalF` emits is an ASCII digit. -/
theorem natDecimalF_digits : ∀ (fuel n : Nat), ∀ c ∈ natDecimalF fuel n, 48 ≤ c ∧ c ≤ 57
  | 0, n => by
    intro c hc
    simp only [natDecimalF, List.mem_singleton] at hc
    subst hc
    have := Nat.mod_lt n (y := 10) (by omega)
    omega
  | fuel + 1, n => by
    intro c hc
    simp only [natDecimalF] at hc
    split at hc
    · simp only [List.mem_singleton] at hc
      omega
    · rcases List.mem_append.1 hc with h | h
      · exact natDecimalF_digits fuel (n / 10) c h
      · simp only [List.mem_singleton] at h
        have := Nat.mod_lt n (y := 10) (by omega)
        omega

/-- `natDecimalF` never returns the empty list. -/
theorem natDecimalF_ne_nil : ∀ (fuel n : Nat), natDecimalF fuel n ≠ []
  | 0, n => by simp [natDecimalF]
  | fuel + 1, n => by
    simp only [natDecimalF]
    split
    · simp
    · simp [natDecimalF_ne_nil fuel (n / 10)]

theorem natDecimal_digits (n : Nat) : ∀ c ∈ natDecimal n, 48 ≤ c ∧ c ≤ 57 :=
  natDecimalF_digits (n + 1) n

theorem natDecimal_ne_nil (n : Nat) : natDecimal n ≠ [] := natDecimalF_ne_nil (n + 1) n

/-- `parseDigitsAcc` over an append runs the two halves in sequence. -/
theorem parseDigitsAcc_append : ∀ (xs ys : List Nat) (a : Nat),
    parseDigitsAcc a (xs ++ ys) =
      (parseDigitsAcc a xs).bind fun b => parseDigitsAcc b ys
  | [], ys, a => by simp [parseDigitsAcc]
  | x :: xs, ys, a => by
    simp only [List.cons_append, parseDigitsAcc]
    split
    · exact parseDigitsAcc_append xs ys _
    · simp

/-- The digit loop of `ParseInt` inverts the digit printer. -/
theorem parseDigitsAcc_natDecimalF : ∀ (fuel n a : Nat), n < fuel →
    parseDigitsAcc a (natDecimalF fuel n) =
      some (a * 10 ^ (natDecimalF fuel n).length + n)
  | 0, n, a, h => by omega
  | fuel + 1, n, a, h => by
    simp only [natDecimalF]
    split
    · rename_i h10
      simp only [parseDigitsAcc]
      rw [if_pos (by omega)]
      simp only [parseDigitsAcc, List.length_singleton]
      congr 1
      omega
    · rename_i h10
      rw [parseDigitsAcc_append]
      rw [parseDigitsAcc_natDecimalF fuel (n / 10) a (by omega)]
      simp only [Option.some_bind, parseDigitsAcc]
      rw [if_pos (by have := Nat.mod_lt n (y := 10) (by omega); omega)]
      simp only [parseDigitsAcc, List.length_append, List.length_singleton]
      congr 1
      have hmod := Nat.mod_lt n (y := 10) (by omega)
      have hdm := Nat.div_add_mod n 10
      set k := (natDecimalF fuel (n / 10)).length
      rw [pow_succ]
      have : 48 + n % 10 - 48 = n % 10 := by omega
      rw [this]
      ring_nf
      omega

theorem parseDigitsAcc_natDecimal (n : Nat) :
    parseDigitsAcc 0 (natDecimal n) = some n := by
  rw [natDecimal, parseDigitsAcc_natDecimalF (n + 1) n 0 (by omega)]
  simp

/-- `ParseInt` inverts `natDecimal` on values in the `int64` range. -/
theorem parseInt64_natDecimal (m : Nat) (hm : m < 2 ^ 63) :
    parseInt64 (natDecimal m) = some (m : Int) := by
  rcases hnd : natDecimal m with _ | ⟨c, cs⟩
  · exact absurd hnd (natDecimal_ne_nil m)
  · have hc : 48 ≤ c ∧ c ≤ 57 := by
      apply natDecimal_digits m
      rw [hnd]
      simp
    have hparse : parseDigitsAcc 0 (c :: cs) = some m := by
      rw [← hnd]
      exact parseDigitsAcc_natDecimal m
    simp only [parseInt64]
    rw [if_neg (by omega : ¬(c = 45 ∨ c = 43))]
    have hneg : (c = 45 : Bool) = false := by
      simp only [decide_eq_false_iff_not]
      omega
    simp only [hneg, hparse]
    simp only [Bool.false_eq_true, if_false]
    rw [if_pos (by omega)]

/-- `ParseInt` inverts `intDecimal` on the `int64` range — the encoder and
decoder agree on every canonically printed integer. -/
theorem parseInt64_intDecimal (n : Int) (h1 : -2 ^ 63 ≤ n) (h2 : n < 2 ^ 63) :
    parseInt64 (intDecimal n) = some n := by
  by_cases hn : n < 0
  · simp only [intDecimal, if_pos hn]
    rcases hnd : natDecimal (-n).toNat with _ | ⟨c, cs⟩
    · exact absurd hnd (natDecimal_ne_nil _)
    · have hparse : parseDigitsAcc 0 (c :: cs) = some (-n).toNat := by
        rw [← hnd]
        exact parseDigitsAcc_natDecimal _
      simp only [parseInt64, hnd, hparse]
      norm_num
      rw [hparse]
      show (if (-n).toNat ≤ 9223372036854775808 then some (-(((-n).toNat : Nat) : Int))
        else none) = some n
      rw [if_pos (by omega)]
      congr 1
      omega
  · simp only [intDecimal, if_neg hn]
    rw [parseInt64_natDecimal n.toNat (by omega)]
    congr 1
    omega



/-! ### Byte scanning -/

/-- `findByte` past a clean prefix finds the first occurrence. -/
theorem findByte_append (b : Nat) : ∀ (xs ys : List Nat), (∀ x ∈ xs, x ≠ b) →
    findByte b (xs ++ b :: ys) = some xs.length
  | [], ys, _ => by simp [findByte]
  | x :: xs, ys, h => by
    simp only [List.cons_append, findByte]
    rw [if_neg (h x (by simp))]
    rw [List.append_eq, findByte_append b xs ys (fun y hy => h y (by simp [hy]))]
    simp

/-! ### The key order of `slices.Sort` -/

theorem keyLt_irrefl : ∀ k : List Nat, keyLt k k = false
  | [] => rfl
  | a :: as => by simp [keyLt, keyLt_irrefl as]

theorem keyLt_trans : ∀ a b c : List Nat,
    keyLt a b = true → keyLt b c = true → keyLt a c = true
  | [], _ :: _, _ :: _, _, _ => rfl
  | a :: as, b :: bs, c :: cs, h1, h2 => by
    simp only [keyLt] at h1 h2 ⊢
    split at h1
    · rename_i hab
      split at h2
      · rename_i hbc
        rw [if_pos (by omega)]
      · split at h2
        · simp at h2
        · rename_i hcb hbc
          rw [if_pos (by omega)]
    · split at h1
      · simp at h1
      · rename_i hba hab
        split at h2
        · rename_i hbc
          rw [if_pos (by omega)]
        · split at h2
          · simp at h2
          · rename_i hcb hbc
            rw [if_neg (by omega), if_neg (by omega)]
            exact keyLt_trans as bs cs h1 h2

theorem keyLt_asymm (a b : List Nat) (h : keyLt a b = true) : keyLt b a = false := by
  by_contra hc
  have hba : keyLt b a = true := by
    revert hc
    cases keyLt b a <;> simp
  have := keyLt_trans a b a h hba
  rw [keyLt_irrefl] at this
  exact absurd this (by simp)

/-- `keysSorted` drops to the tail. -/
theorem keysSorted_tail : ∀ (k : List Nat) (t : List (List Nat)),
    keysSorted (k :: t) = true → keysSorted t = true
  | _, [] => by intro _; rfl
  | k, a :: t => by
    simp only [keysSorted, Bool.and_eq_true]
    exact fun h => h.2

/-- Adjacent strict sortedness gives all-pairs strict order. -/
theorem keysSorted_pairwise : ∀ l : List (List Nat), keysSorted l = true →
    List.Pairwise (fun a b => keyLt a b = true) l
  | [] => by intro _; exact List.Pairwise.nil
  | [a] => by intro _; simp
  | a :: b :: t => by
    intro h
    have hab : keyLt a b = true := by
      simp only [keysSorted, Bool.and_eq_true] at h
      exact h.1
    have htail := keysSorted_pairwise (b :: t) (keysSorted_tail a _ h)
    refine List.Pairwise.cons ?_ htail
    intro c hc
    rcases List.mem_cons.1 hc with rfl | hc
    · exact hab
    · have hbc := (List.pairwise_cons.1 htail).1 c hc
      exact keyLt_trans a b c hab hbc

/-- Strictly sorted keys are distinct. -/
theorem keysSorted_nodup (l : List (List Nat)) (h : keysSorted l = true) :
    l.Nodup := by
  refine (keysSorted_pairwise l h).imp ?_
  intro a b hab
  intro hEq
  subst hEq
  rw [keyLt_irrefl] at hab
  exact absurd hab (by simp)

/-! ### Sorting already-sorted entries is the identity -/

theorem sortPairs_sorted_id : ∀ l : List (List Nat × List Nat),
    keysSorted (l.map Prod.fst) = true → sortPairs l = l
  | [] => by intro _; rfl
  | e :: es => by
    intro h
    have htail : keysSorted (es.map Prod.fst) = true :=
      keysSorted_tail e.1 _ (by simpa using h)
    simp only [sortPairs, sortPairs_sorted_id es htail]
    cases es with
    | nil => rfl
    | cons f fs =>
      have hef : keyLt e.1 f.1 = true := by
        simp only [List.map_cons, keysSorted, Bool.and_eq_true] at h
        exact h.1
      simp [insertPair, hef]

/-- `encodeEntryList` keeps the keys. -/
theorem encodeEntryList_keys : ∀ d : List (List Nat × Bdata),
    (encodeEntryList d).map Prod.fst = d.map Prod.fst
  | [] => rfl
  | (k, v) :: es => by simp [encodeEntryList, encodeEntryList_keys es]



theorem joinPairs_encodeEntryList : ∀ d : List (List Nat × Bdata),
    joinPairs (encodeEntryList d) = entriesBytes d
  | [] => rfl
  | (k, v) :: es => by
    simp only [encodeEntryList, joinPairs, entriesBytes, joinPairs_encodeEntryList es]
    simp [Encode]

/-- On a canonically ordered dictionary, `Encode` is the plain in-order
entry encoding between `d` and `e`. -/
theorem Encode_dict_sorted (d : List (List Nat × Bdata))
    (h : keysSorted (d.map Prod.fst) = true) :
    Encode (.dict d) = 100 :: (entriesBytes d ++ [101]) := by
  simp only [Encode]
  rw [sortPairs_sorted_id _ (by rw [encodeEntryList_keys]; exact h),
    joinPairs_encodeEntryList]

/-! ### Go map insertion on fresh keys appends -/

theorem dictInsert_append : ∀ (acc : List (List Nat × Bdata)) (k : List Nat) (v : Bdata),
    k ∉ acc.map Prod.fst → dictInsert acc k v = acc ++ [(k, v)]
  | [], k, v, _ => rfl
  | (k0, v0) :: acc, k, v, h => by
    simp only [List.map_cons, List.mem_cons] at h
    push_neg at h
    simp only [dictInsert]
    rw [if_neg (by simpa using (Ne.symm h.1))]
    rw [dictInsert_append acc k v h.2]
    simp

/-! ### Canonicality extraction -/

theorem canonB_str (s : List Nat) (h : canonB (.str s) = true) : s.length < 2 ^ 63 := by
  simpa [canonB] using h

theorem canonB_int (n : Int) (h : canonB (.int n) = true) : -2 ^ 63 ≤ n ∧ n < 2 ^ 63 := by
  simpa [canonB, Bool.and_eq_true] using h

theorem canonB_list (l : List Bdata) (h : canonB (.list l) = true) :
    canonItems l = true := by
  simpa [canonB] using h

theorem canonB_dict (d : List (List Nat × Bdata)) (h : canonB (.dict d) = true) :
    canonEntries d = true ∧ keysSorted (d.map Prod.fst) = true := by
  simpa [canonB, Bool.and_eq_true] using h

theorem canonItems_cons (x : Bdata) (xs : List Bdata)
    (h : canonItems (x :: xs) = true) : canonB x = true ∧ canonItems xs = true := by
  simpa [canonItems, Bool.and_eq_true] using h

theorem canonEntries_cons (k : List Nat) (v : Bdata) (es : List (List Nat × Bdata))
    (h : canonEntries ((k, v) :: es) = true) :
    k.length < 2 ^ 63 ∧ canonB v = true ∧ canonEntries es = true := by
  simpa [canonEntries, Bool.and_eq_true, and_assoc] using h

/-- The first byte of a canonical encoding is never `'e'` (101): it is a
digit, `'i'`, `'l'`, or `'d'`. -/
theorem Encode_head (v : Bdata) (h : canonB v = true) :
    ∃ c cs, Encode v = c :: cs ∧ c ≠ 101 := by
  cases v with
  | invalid => simp [canonB] at h
  | str s =>
    rcases hnd : natDecimal s.length with _ | ⟨c, cs⟩
    · exact absurd hnd (natDecimal_ne_nil _)
    · have hc := natDecimal_digits s.length c (by rw [hnd]; simp)
      exact ⟨c, cs ++ 58 :: s, by simp [Encode, hnd], by omega⟩
  | int n => exact ⟨105, intDecimal n ++ [101], rfl, by omega⟩
  | list l => exact ⟨108, encodeItems l ++ [101], rfl, by omega⟩
  | dict d => exact ⟨100, joinPairs (sortPairs (encodeEntryList d)) ++ [101], rfl, by omega⟩

/-! ### Decoding a canonical encoding recovers the value

The central induction: on the fuel, simultaneously for values, list items,
and dictionary entries.  Every nested call runs at strictly smaller fuel,
and the stated fuel bounds are maintained because every decoded item
consumes at least one byte. -/

theorem decodeF_encodeAll : ∀ fuel : Nat,
    (∀ (v : Bdata) (rest : List Nat), canonB v = true →
      2 * (Encode v ++ rest).length + 1 ≤ fuel →
      decodeF fuel (Encode v ++ rest) = (some v, (Encode v).length, none)) ∧
    (∀ (l : List Bdata) (rest : List Nat) (acc : List Bdata) (consumed : Nat),
      canonItems l = true →
      2 * (encodeItems l ++ 101 :: rest).length + 2 ≤ fuel →
      decodeItems fuel (encodeItems l ++ 101 :: rest) acc consumed =
        (some (.list (acc.reverse ++ l)), consumed + (encodeItems l).length + 1, none)) ∧
    (∀ (d : List (List Nat × Bdata)) (rest : List Nat)
        (acc : List (List Nat × Bdata)) (consumed : Nat),
      canonEntries d = true → (d.map Prod.fst).Nodup →
      (∀ k ∈ d.map Prod.fst, k ∉ acc.map Prod.fst) →
      2 * (entriesBytes d ++ 101 :: rest).length + 2 ≤ fuel →
      decodeEntries fuel (entriesBytes d ++ 101 :: rest) acc consumed =
        (some (.dict (acc ++ d)), consumed + (entriesBytes d).length + 1, none)) := by
  intro fuel
  induction fuel using Nat.strong_induction_on with
  | _ fuel IH =>
  refine ⟨?_, ?_, ?_⟩
  · -- values
    intro v rest hcanon hfuel
    cases fuel with
    | zero => exact absurd hfuel (by omega)
    | succ f =>
    cases v with
    | invalid => simp [canonB] at hcanon
    | str s =>
      have hlen := canonB_str s hcanon
      rcases hnd : natDecimal s.length with _ | ⟨c, cs⟩
      · exact absurd hnd (natDecimal_ne_nil _)
      have hcd : 48 ≤ c ∧ c ≤ 57 := natDecimal_digits s.length c (by rw [hnd]; simp)
      have hshape : Encode (.str s) ++ rest = c :: (cs ++ 58 :: (s ++ rest)) := by
        simp [Encode, hnd]
      rw [hshape]
      simp only [decodeF]
      rw [if_neg (by omega : ¬(c = 105)), if_neg (by omega : ¬(c = 108)),
        if_neg (by omega : ¬(c = 100))]
      have hfb : findByte 58 (c :: (cs ++ 58 :: (s ++ rest))) = some (c :: cs).length := by
        have hd : ∀ x ∈ c :: cs, x ≠ 58 := by
          intro x hx
          have := natDecimal_digits s.length x (by rw [hnd]; exact hx)
          omega
        simpa using findByte_append 58 (c :: cs) (s ++ rest) hd
      rw [hfb]
      split
      · rename_i j hj
        have hjl : j = (c :: cs).length := by
          injection hj with hj
          omega
        subst hjl
        have htake : (c :: (cs ++ 58 :: (s ++ rest))).take (c :: cs).length
            = natDecimal s.length := by
          rw [hnd]
          rw [show c :: (cs ++ 58 :: (s ++ rest)) = (c :: cs) ++ (58 :: (s ++ rest)) by simp]
          exact List.take_left _ _
        rw [htake, parseInt64_natDecimal s.length hlen]
        split
        · rename_i heq
          simp at heq
        · rename_i n hn
          have hns : n = (s.length : Int) := by
            injection hn with hn
            omega
          subst hns
          have hdrop : (c :: (cs ++ 58 :: (s ++ rest))).drop ((c :: cs).length + 1)
              = s ++ rest := by
            rw [show c :: (cs ++ 58 :: (s ++ rest))
              = ((c :: cs) ++ [58]) ++ (s ++ rest) by simp]
            rw [show (c :: cs).length + 1 = ((c :: cs) ++ [58]).length by simp]
            exact List.drop_left _ _
          rw [Int.toNat_ofNat, hdrop, List.take_left]
          have hEl : (Encode (.str s)).length = (c :: cs).length + 1 + s.length := by
            simp [Encode, hnd]
            omega
          rw [hEl]
      · rename_i hj
        simp at hj
    | int n =>
      obtain ⟨hn1, hn2⟩ := canonB_int n hcanon
      have hshape : Encode (.int n) ++ rest = 105 :: (intDecimal n ++ 101 :: rest) := by
        simp [Encode]
      rw [hshape]
      simp only [decodeF, List.drop_succ_cons, List.drop_zero]
      rw [if_pos trivial]
      have hb : ∀ x ∈ intDecimal n, x ≠ 101 := by
        intro x hx
        simp only [intDecimal] at hx
        split at hx
        · rcases List.mem_cons.1 hx with rfl | hx
          · omega
          · have := natDecimal_digits _ x hx
            omega
        · have := natDecimal_digits _ x hx
          omega
      rw [findByte_append 101 (intDecimal n) rest hb]
      split
      · rename_i j hj
        have hjl : j = (intDecimal n).length := by
          injection hj with hj
          omega
        subst hjl
        rw [List.take_left, parseInt64_intDecimal n hn1 hn2]
        split
        · rename_i heq
          simp at heq
        · rename_i m hm
          have hms : m = n := by
            injection hm with hm
            omega
          rw [hms]
          have hEl : (Encode (.int n)).length = (intDecimal n).length + 2 := by
            simp [Encode]
          rw [hEl]
      · rename_i hj
        simp at hj
    | list l =>
      have hil := canonB_list l hcanon
      have hshape : Encode (.list l) ++ rest = 108 :: (encodeItems l ++ 101 :: rest) := by
        simp [Encode]
      rw [hshape]
      simp only [decodeF, List.drop_succ_cons, List.drop_zero]
      rw [if_neg (by omega : ¬(108 = 105)), if_pos trivial]
      have hQ := (IH f (by omega)).2.1 l rest [] 1 hil (by
        simp only [List.length_append, List.length_cons] at hfuel ⊢
        have : (Encode (.list l)).length = (encodeItems l).length + 2 := by simp [Encode]
        omega)
      rw [hQ]
      have hEl : (Encode (.list l)).length = (encodeItems l).length + 2 := by simp [Encode]
      rw [hEl]
      simp only [List.reverse_nil, List.nil_append]
      rw [show 1 + (encodeItems l).length + 1 = (encodeItems l).length + 2 by omega]
    | dict d =>
      obtain ⟨hce, hks⟩ := canonB_dict d hcanon
      have hshape : Encode (.dict d) ++ rest = 100 :: (entriesBytes d ++ 101 :: rest) := by
        rw [Encode_dict_sorted d hks]
        simp
      rw [hshape]
      simp only [decodeF, List.drop_succ_cons, List.drop_zero]
      rw [if_neg (by omega : ¬(100 = 105)), if_neg (by omega : ¬(100 = 108)), if_pos trivial]
      have hR := (IH f (by omega)).2.2 d rest [] 1 hce
        (by simpa [encodeEntryList_keys] using keysSorted_nodup _ hks)
        (by simp)
        (by
          have h1 : (Encode (.dict d)).length = (entriesBytes d).length + 2 := by
            rw [Encode_dict_sorted d hks]
            simp
          simp only [List.length_append, List.length_cons] at hfuel ⊢
          omega)
      rw [hR]
      have hEl : (Encode (.dict d)).length = (entriesBytes d).length + 2 := by
        rw [Encode_dict_sorted d hks]
        simp
      rw [hEl]
      simp only [List.nil_append]
      rw [show 1 + (entriesBytes d).length + 1 = (entriesBytes d).length + 2 by omega]
  · -- list items
    intro l rest acc consumed hcanon hfuel
    cases fuel with
    | zero => exact absurd hfuel (by omega)
    | succ f =>
    cases l with
    | nil =>
      simp only [encodeItems, List.nil_append, decodeItems]
      rw [if_pos trivial]
      simp [encodeItems]
    | cons x xs =>
      obtain ⟨hx, hxs⟩ := canonItems_cons x xs hcanon
      obtain ⟨c, cs, hEnc, hc101⟩ := Encode_head x hx
      have hshape : encodeItems (x :: xs) ++ 101 :: rest
          = c :: (cs ++ (encodeItems xs ++ 101 :: rest)) := by
        simp [encodeItems, hEnc]
      have hshape2 : c :: (cs ++ (encodeItems xs ++ 101 :: rest))
          = Encode x ++ (encodeItems xs ++ 101 :: rest) := by
        simp [hEnc]
      have hlenx : (Encode x).length = cs.length + 1 := by simp [hEnc]
      rw [hshape]
      simp only [decodeItems]
      rw [if_neg hc101]
      have hP := (IH f (by omega)).1 x (encodeItems xs ++ 101 :: rest) hx (by
        simp only [List.length_append, List.length_cons, encodeItems] at hfuel ⊢
        omega)
      rw [hshape2, hP]
      split
      · rename_i heq
        simp at heq
      · rename_i elem count heq
        injection heq with h1 heq
        injection heq with h2 _
        subst h1
        subst h2
        simp only [Option.getD_some]
        rw [List.drop_left]
        have hQ := (IH f (by omega)).2.1 xs rest (x :: acc)
          (consumed + (Encode x).length) hxs (by
            simp only [List.length_append, List.length_cons, encodeItems] at hfuel ⊢
            omega)
        rw [hQ]
        simp only [List.reverse_cons, List.append_assoc, List.cons_append,
          List.nil_append, encodeItems, List.length_append]
        rw [show consumed + (Encode x).length + (encodeItems xs).length + 1
          = consumed + ((Encode x).length + (encodeItems xs).length) + 1 by omega]
  · -- dictionary entries
    intro d rest acc consumed hce hnodup hfresh hfuel
    cases fuel with
    | zero => exact absurd hfuel (by omega)
    | succ f =>
    cases d with
    | nil =>
      simp only [entriesBytes, List.nil_append, decodeEntries]
      rw [if_pos trivial]
      simp [entriesBytes]
    | cons e es =>
      obtain ⟨k, v⟩ := e
      obtain ⟨hk, hv, hes⟩ := canonEntries_cons k v es hce
      have hkstr : canonB (.str k) = true := by
        simp only [canonB, decide_eq_true_eq]
        omega
      obtain ⟨c, cs, hEnc, hc101⟩ := Encode_head (.str k) hkstr
      have hshape : entriesBytes ((k, v) :: es) ++ 101 :: rest
          = c :: (cs ++ (Encode v ++ (entriesBytes es ++ 101 :: rest))) := by
        simp [entriesBytes, hEnc]
      have hshape2 : c :: (cs ++ (Encode v ++ (entriesBytes es ++ 101 :: rest)))
          = Encode (.str k) ++ (Encode v ++ (entriesBytes es ++ 101 :: rest)) := by
        simp [hEnc]
      have hlenk : (Encode (.str k)).length = cs.length + 1 := by simp [hEnc]
      rw [hshape]
      simp only [decodeEntries]
      rw [if_neg hc101]
      have hPk := (IH f (by omega)).1 (.str k)
        (Encode v ++ (entriesBytes es ++ 101 :: rest)) hkstr (by
          simp only [List.length_append, List.length_cons, entriesBytes] at hfuel ⊢
          omega)
      rw [hshape2, hPk]
      split
      · rename_i heq
        simp at heq
      · rename_i elem count heq
        simp only [Prod.mk.injEq] at heq
        obtain ⟨h1, h2, -⟩ := heq
        subst h1
        subst h2
        split
        · rename_i ks heq2
          injection heq2 with heq2
          injection heq2 with heq2
          subst heq2
          rw [List.drop_left]
          have hPv := (IH f (by omega)).1 v (entriesBytes es ++ 101 :: rest) hv (by
            simp only [List.length_append, List.length_cons, entriesBytes] at hfuel ⊢
            omega)
          rw [hPv]
          split
          · rename_i heq3
            simp at heq3
          · rename_i val vcount heq3
            simp only [Prod.mk.injEq] at heq3
            obtain ⟨h3, h4, -⟩ := heq3
            subst h3
            subst h4
            simp only [Option.getD_some]
            rw [List.drop_left]
            have hkfresh : k ∉ acc.map Prod.fst := hfresh k (by simp)
            rw [dictInsert_append acc k v hkfresh]
            have hnodup2 : (es.map Prod.fst).Nodup := by
              simp only [List.map_cons, List.nodup_cons] at hnodup
              exact hnodup.2
            have hfresh2 : ∀ k2 ∈ es.map Prod.fst,
                k2 ∉ (acc ++ [(k, v)]).map Prod.fst := by
              intro k2 hk2
              simp only [List.map_append, List.map_cons, List.map_nil, List.mem_append,
                List.mem_singleton]
              push_neg
              refine ⟨hfresh k2 (by simp [hk2]), ?_⟩
              simp only [List.map_cons, List.nodup_cons] at hnodup
              intro hkk
              exact absurd (hkk ▸ hk2) hnodup.1
            have hR := (IH f (by omega)).2.2 es rest (acc ++ [(k, v)])
              (consumed + (Encode (.str k)).length + (Encode v).length)
              hes hnodup2 hfresh2 (by
                simp only [List.length_append, List.length_cons, entriesBytes] at hfuel ⊢
                omega)
            rw [hR]
            simp only [List.append_assoc, List.singleton_append, entriesBytes,
              List.length_append]
            rw [show consumed + (Encode (.str k)).length + (Encode v).length
                  + (entriesBytes es).length + 1
                = consumed + ((Encode (.str k)).length
                  + ((Encode v).length + (entriesBytes es).length)) + 1 by omega]
        · rename_i hcon
          exact absurd rfl (hcon k)

/-- `Decode` inverts `Encode` on canonical values, consuming everything
with a nil error. -/
theorem Decode_Encode (v : Bdata) (h : canonB v = true) :
    Decode (Encode v) = (some v, (Encode v).length, none) := by
  have hP := (decodeF_encodeAll (2 * (Encode v).length + 2)).1 v [] h (by simp)
  simpa [Decode] using hP

/-- Membership in an insertion step. -/
theorem mem_insertPair (e : List Nat × List Nat) :
    ∀ (l : List (List Nat × List Nat)) (b : List Nat × List Nat),
      b ∈ insertPair e l → b = e ∨ b ∈ l
  | [], b => by simp [insertPair]
  | f :: fs, b => by
    simp only [insertPair]
    split
    · intro hb
      rcases List.mem_cons.1 hb with rfl | hb
      · exact Or.inl rfl
      · exact Or.inr hb
    · intro hb
      rcases List.mem_cons.1 hb with rfl | hb
      · exact Or.inr (by simp)
      · rcases mem_insertPair e fs b hb with rfl | hb
        · exact Or.inl rfl
        · exact Or.inr (by simp [hb])

/-- Inserting keeps the output weakly sorted (no later key strictly below
an earlier one). -/
theorem pairwise_insertPair (e : List Nat × List Nat) :
    ∀ l, List.Pairwise (fun a b => keyLt b.1 a.1 = false) l →
      List.Pairwise (fun a b => keyLt b.1 a.1 = false) (insertPair e l)
  | [], _ => by simp [insertPair]
  | f :: fs, h => by
    obtain ⟨hf, hfs⟩ := List.pairwise_cons.1 h
    simp only [insertPair]
    split
    · rename_i hef
      refine List.Pairwise.cons ?_ h
      intro b hb
      rcases List.mem_cons.1 hb with rfl | hb
      · exact keyLt_asymm _ _ hef
      · by_contra hc
        have hbe : keyLt b.1 e.1 = true := by
          revert hc
          cases keyLt b.1 e.1 <;> simp
        have hbf := keyLt_trans _ _ _ hbe hef
        rw [hf b hb] at hbf
        exact absurd hbf (by simp)
    · rename_i hef
      refine List.Pairwise.cons ?_ (pairwise_insertPair e fs hfs)
      intro b hb
      rcases mem_insertPair e fs b hb with rfl | hb
      · revert hef
        cases keyLt b.1 f.1 <;> simp
      · exact hf b hb

/-- `sortPairs` always emits keys in (weakly) ascending `keyLt` order —
the determinism half of the encoder contract. -/
theorem sortPairs_pairwise (l : List (List Nat × List Nat)) :
    List.Pairwise (fun a b => keyLt b.1 a.1 = false) (sortPairs l) := by
  induction l with
  | nil => simp [sortPairs]
  | cons e es ih => exact pairwise_insertPair e (sortPairs es) ih

/-- A positive value never prints with a leading zero. -/
theorem natDecimalF_head_ne_zero : ∀ (fuel m : Nat), 1 ≤ m → m < fuel →
    (natDecimalF fuel m).head? ≠ some 48
  | 0, m, _, h => by omega
  | fuel + 1, m, h1, h => by
    simp only [natDecimalF]
    split
    · rename_i h10
      simp only [List.head?_cons, ne_eq, Option.some.injEq]
      omega
    · rename_i h10
      rcases hnd : natDecimalF fuel (m / 10) with _ | ⟨c, cs⟩
      · exact absurd hnd (natDecimalF_ne_nil _ _)
      · have := natDecimalF_head_ne_zero fuel (m / 10) (by omega) (by
          have := Nat.div_lt_self (by omega : 0 < m) (by omega : 1 < 10)
          omega)
        rw [hnd] at this
        simpa [hnd] using this

/-- `intDecimal` emits no redundant sign and no leading zero: the head is
never `'+'`, never `'0'` unless the value is zero, and zero prints as the
single digit `0`. -/
theorem intDecimal_canonical (n : Int) :
    (intDecimal n).head? ≠ some 43 ∧ (n ≠ 0 → (intDecimal n).head? ≠ some 48) ∧
    (n = 0 → intDecimal n = [48]) := by
  by_cases hn : n < 0
  · simp only [intDecimal, if_pos hn]
    refine ⟨by simp, fun _ => by simp, fun h0 => by omega⟩
  · simp only [intDecimal, if_neg hn]
    refine ⟨?_, ?_, ?_⟩
    · rcases hnd : natDecimal n.toNat with _ | ⟨c, cs⟩
      · exact absurd hnd (natDecimal_ne_nil _)
      · have := natDecimal_digits n.toNat c (by rw [hnd]; simp)
        simp only [List.head?_cons, ne_eq, Option.some.injEq]
        omega
    · intro hne
      have h1 : 1 ≤ n.toNat := by omega
      exact natDecimalF_head_ne_zero (n.toNat + 1) n.toNat h1 (by omega)
    · intro h0
      subst h0
      rfl





/-- Claim C4: on canonical inputs (byte strings produced by `Encode` from a
canonical value: sorted unique dictionary keys, minimal integers, no
`invalid` parts), `Encode` is a left inverse of `Decode`, the whole input
is consumed with a nil error; and `Encode` is deterministic — its key sort
always emits keys in ascending bytewise order, and its integers carry no
redundant sign and no leading zeros. -/
theorem c4_encode_decode_roundtrip :
    (∀ b : List Nat, (∃ v, canonB v = true ∧ Encode v = b) →
      encodeO (Decode b).1 = b ∧ (Decode b).2.1 = b.length ∧ (Decode b).2.2 = none) ∧
    (∀ d : List (List Nat × List Nat),
      List.Pairwise (fun a b => keyLt b.1 a.1 = false) (sortPairs d)) ∧
    (∀ n : Int, (intDecimal n).head? ≠ some 43 ∧
      (n ≠ 0 → (intDecimal n).head? ≠ some 48) ∧ (n = 0 → intDecimal n = [48])) := by
  refine ⟨?_, sortPairs_pairwise, intDecimal_canonical⟩
  rintro b ⟨v, hv, rfl⟩
  rw [Decode_Encode v hv]
  exact ⟨rfl, rfl, rfl⟩

/-- Witness for C4 at the spec's own dictionary scenario
`d3:cow3:moo4:spam4:eggse`. -/
theorem c4_roundtrip_witness :
    encodeO (Decode (strBytes sCanonDict)).1 = strBytes sCanonDict ∧
    (Decode (strBytes sCanonDict)).2.1 = (strBytes sCanonDict).length ∧
    (Decode (strBytes sCanonDict)).2.2 = none :=
  c4_encode_decode_roundtrip.1 (strBytes sCanonDict) ⟨c4v, by decide, by decide⟩

/-- Claim C1, amended: the info-hash equals the SHA-1 of the exact info
slice whenever that slice is canonically encoded.  For the metainfo
`d4:info<info>e` with a canonical info value `v`, the info slice is
`Encode v` (first conjunct), and any successful parse records
`sha1 (Encode v)` as the info-hash (second conjunct). -/
theorem c1_infohash_of_canonical_info (v : Bdata) (t : GTorrent)
    (hv : canonB v = true)
    (h : TorrentFromBytes (Encode (.dict [(keyInfo, v)])) = some t) :
    Encode (.dict [(keyInfo, v)]) = strBytes c1prefix ++ (Encode v ++ [101]) ∧
    t.infoHash = sha1 (Encode v) := by
  have hcanon : canonB (.dict [(keyInfo, v)]) = true := by
    simp [canonB, canonEntries, keysSorted, hv]
    decide
  constructor
  · simp [Encode, encodeEntryList, sortPairs, insertPair, joinPairs, natDecimal,
      natDecimalF, strBytes, c1prefix, keyInfo, sInfo]
  · unfold TorrentFromBytes at h
    rw [Decode_Encode _ hcanon] at h
    have h2 : TorrentFromBencodeData (some (.dict [(keyInfo, v)])) = some t := h
    obtain ⟨root, rootDict, info, name, fl, pl, pieces, priv,
      hroot, hdict, hinfo, -, -, ht⟩ := tfbd_shape _ _ h2
    injection hroot with hroot
    rw [← hroot] at hdict
    simp only [asDict?, Option.some.injEq] at hdict
    rw [← hdict] at hinfo
    simp only [lookupD, if_pos, Option.some.injEq] at hinfo
    subst hinfo
    rw [ht]

/-- Witness for the amended C1 at the concrete canonical info dictionary
`c1v`. -/
theorem c1_canonical_witness :
    TorrentFromBytes (Encode (.dict [(keyInfo, c1v)])) = some c1torrent ∧
    c1torrent.infoHash = sha1 (Encode c1v) :=
  ⟨by decide, (c1_infohash_of_canonical_info c1v c1torrent (by decide) (by decide)).2⟩

theorem clipWrite_length : ∀ (s : List Nat) (base pOff : Nat) (data : List Nat),
    (clipWrite s base pOff data).length = s.length
  | [], _, _, _ => rfl
  | b :: t, base, pOff, data => by
    simp [clipWrite, clipWrite_length t (base + 1) pOff data]

theorem clipWrite_append : ∀ (a b : List Nat) (base pOff : Nat) (data : List Nat),
    clipWrite (a ++ b) base pOff data =
      clipWrite a base pOff data ++ clipWrite b (base + a.length) pOff data
  | [], b, base, pOff, data => by simp [clipWrite]
  | x :: a, b, base, pOff, data => by
    simp only [List.cons_append, clipWrite, List.length_cons, List.append_eq]
    rw [clipWrite_append a b (base + 1) pOff data,
      show base + (a.length + 1) = base + 1 + a.length by omega]

theorem clipWrite_getElem? : ∀ (s : List Nat) (base pOff : Nat) (data : List Nat) (j : Nat),
    (clipWrite s base pOff data)[j]? =
      if pOff ≤ base + j ∧ base + j < pOff + data.length ∧ j < s.length then
        data[base + j - pOff]?
      else s[j]?
  | [], base, pOff, data, j => by simp [clipWrite]
  | b :: t, base, pOff, data, j => by
    cases j with
    | zero =>
      simp only [clipWrite, List.getElem?_cons_zero, List.length_cons]
      by_cases h : pOff ≤ base ∧ base < pOff + data.length
      · rw [if_pos h, if_pos (by omega)]
        rw [show base + 0 - pOff = base - pOff by omega]
        rw [List.getD_eq_getElem?_getD,
          List.getElem?_eq_getElem (by omega : base - pOff < data.length)]
        simp
      · rw [if_neg h, if_neg (by omega)]
    | succ j =>
      simp only [clipWrite, List.getElem?_cons_succ,
        clipWrite_getElem? t (base + 1) pOff data j, List.length_cons]
      by_cases h : pOff ≤ base + 1 + j ∧ base + 1 + j < pOff + data.length ∧ j < t.length
      · rw [if_pos h, if_pos (by omega)]
        rw [show base + (j + 1) - pOff = base + 1 + j - pOff by omega]
      · rw [if_neg h, if_neg (by omega)]

theorem writeAt_length (f : List Nat) (off : Nat) (d : List Nat)
    (h : off + d.length ≤ f.length) : (writeAt f off d).length = f.length := by
  simp only [writeAt, List.length_append, List.length_take, List.length_drop]
  omega

theorem writeAt_getElem? (f : List Nat) (off : Nat) (d : List Nat) (j : Nat)
    (h : off + d.length ≤ f.length) :
    (writeAt f off d)[j]? =
      if off ≤ j ∧ j < off + d.length then d[j - off]? else f[j]? := by
  simp only [writeAt]
  by_cases h1 : j < off
  · rw [List.getElem?_append_left
      (show j < (List.take off f ++ d).length by simp [List.length_take]; omega)]
    rw [List.getElem?_append_left
      (show j < (List.take off f).length by simp [List.length_take]; omega)]
    rw [List.getElem?_take_of_lt h1, if_neg (by omega)]
  · by_cases h2 : j < off + d.length
    · rw [List.getElem?_append_left
        (show j < (List.take off f ++ d).length by simp [List.length_take]; omega)]
      rw [List.getElem?_append_right
        (show (List.take off f).length ≤ j by simp [List.length_take]; omega)]
      rw [if_pos (by omega)]
      congr 1
      simp [List.length_take]
      omega
    · rw [List.getElem?_append_right
        (show (List.take off f ++ d).length ≤ j by simp [List.length_take]; omega)]
      rw [List.getElem?_drop, if_neg (by omega)]
      congr 1
      simp [List.length_take]
      omega



theorem goBranch_eq_clipWrite (f : List Nat) (L S : Nat) (pOff : Nat) (data : List Nat)
    (hf : f.length = L) :
    (if pOff < S + L ∧ S < pOff + data.length then
       writeAt f (if S < pOff then pOff - S else 0)
         ((data.drop (if pOff < S then S - pOff else 0)).take
           (if S + L < pOff + data.length
            then S + L - (pOff + (if pOff < S then S - pOff else 0))
            else data.length - (if pOff < S then S - pOff else 0)))
     else f) = clipWrite f S pOff data := by
  rw [show (if S < pOff then pOff - S else 0) = pOff - S by split <;> omega]
  rw [show (if pOff < S then S - pOff else 0) = S - pOff by split <;> omega]
  by_cases hov : pOff < S + L ∧ S < pOff + data.length
  · rw [if_pos hov]
    apply List.ext_getElem?
    intro j
    rw [writeAt_getElem? _ _ _ _
      (by simp only [List.length_take, List.length_drop]; rw [hf]; split <;> omega)]
    rw [clipWrite_getElem?]
    by_cases hj : pOff ≤ S + j ∧ S + j < pOff + data.length ∧ j < f.length
    · rw [if_pos hj]
      rw [if_pos (by simp only [List.length_take, List.length_drop]; rw [hf] at hj; split <;> omega)]
      rw [List.getElem?_take_of_lt (by rw [hf] at hj; split <;> omega)]
      rw [List.getElem?_drop]
      congr 1
      omega
    · rw [if_neg hj]
      rw [if_neg (by simp only [List.length_take, List.length_drop]; rw [hf] at hj; split <;> omega)]
  · rw [if_neg hov]
    apply List.ext_getElem?
    intro j
    rw [clipWrite_getElem?]
    rw [if_neg (by rw [hf]; omega)]



theorem writePieceAux_lengths (pOff : Nat) (data : List Nat) :
    ∀ (lens : List Nat) (files : List (List Nat)) (curOff : Nat),
    files.map List.length = lens →
    (writePieceAux pOff data lens files curOff).map List.length = lens
  | [], files, curOff, h => by
    cases files with
    | nil => simp [writePieceAux]
    | cons f fs => simp at h
  | L :: lens, files, curOff, h => by
    cases files with
    | nil => simp at h
    | cons f fs =>
      simp only [List.map_cons, List.cons.injEq] at h
      obtain ⟨hf, hfs⟩ := h
      simp only [writePieceAux, List.map_cons]
      rw [goBranch_eq_clipWrite f L curOff pOff data hf]
      rw [writePieceAux_lengths pOff data lens fs (curOff + L) hfs]
      rw [clipWrite_length, hf]

theorem writePieceAux_flatten (pOff : Nat) (data : List Nat) :
    ∀ (lens : List Nat) (files : List (List Nat)) (curOff : Nat),
    files.map List.length = lens →
    (writePieceAux pOff data lens files curOff).flatten =
      clipWrite files.flatten curOff pOff data
  | [], files, curOff, h => by
    cases files with
    | nil => simp [writePieceAux, clipWrite]
    | cons f fs => simp at h
  | L :: lens, files, curOff, h => by
    cases files with
    | nil => simp at h
    | cons f fs =>
      simp only [List.map_cons, List.cons.injEq] at h
      obtain ⟨hf, hfs⟩ := h
      simp only [writePieceAux, List.flatten_cons]
      rw [goBranch_eq_clipWrite f L curOff pOff data hf]
      rw [writePieceAux_flatten pOff data lens fs (curOff + L) hfs]
      rw [← hf, ← clipWrite_append]



theorem foldClip_spec (P : Nat) (buffer : List Nat) :
    ∀ (m : Nat) (s : List Nat), s.length = buffer.length →
    ((List.range m).foldl
        (fun t i => clipWrite t 0 (i * P) ((buffer.drop (i * P)).take P)) s).length
        = buffer.length ∧
    ∀ j, ((List.range m).foldl
        (fun t i => clipWrite t 0 (i * P) ((buffer.drop (i * P)).take P)) s)[j]? =
      if j < m * P ∧ j < buffer.length then buffer[j]? else s[j]?
  | 0, s, h => by
    refine ⟨by simpa using h, fun j => ?_⟩
    simp
  | m + 1, s, h => by
    obtain ⟨ihl, ihg⟩ := foldClip_spec P buffer m s h
    rw [List.range_succ, List.foldl_append, List.foldl_cons, List.foldl_nil]
    refine ⟨by rw [clipWrite_length, ihl], fun j => ?_⟩
    rw [clipWrite_getElem?, ihl]
    by_cases hnew : m * P ≤ 0 + j ∧
        0 + j < m * P + ((buffer.drop (m * P)).take P).length ∧ j < buffer.length
    · have hband := hnew
      simp only [List.length_take, List.length_drop] at hband
      rw [if_pos hnew]
      rw [List.getElem?_take_of_lt (by omega)]
      rw [List.getElem?_drop]
      rw [show m * P + (0 + j - m * P) = j by omega]
      rw [Nat.succ_mul]
      rw [if_pos (by omega)]
    · have hband := hnew
      simp only [List.length_take, List.length_drop] at hband
      rw [if_neg hnew, ihg j, Nat.succ_mul]
      by_cases hA : j < m * P ∧ j < buffer.length
      · rw [if_pos hA, if_pos (by omega)]
      · rw [if_neg hA, if_neg (by omega)]



theorem goBranch_minmax (f : List Nat) (L S : Nat) (pOff : Nat) (data : List Nat) :
    (if pOff < S + L ∧ S < pOff + data.length then
       writeAt f (if S < pOff then pOff - S else 0)
         ((data.drop (if pOff < S then S - pOff else 0)).take
           (if S + L < pOff + data.length
            then S + L - (pOff + (if pOff < S then S - pOff else 0))
            else data.length - (if pOff < S then S - pOff else 0)))
     else f) =
    (if pOff < S + L ∧ S < pOff + data.length then
       writeAt f (pOff - S)
         ((data.drop (S - pOff)).take
           (min (pOff + data.length) (S + L) - max pOff S))
     else f) := by
  rw [show (if S < pOff then pOff - S else 0) = pOff - S from by split <;> omega]
  rw [show (if pOff < S then S - pOff else 0) = S - pOff from by split <;> omega]
  rw [show (if S + L < pOff + data.length
        then S + L - (pOff + (S - pOff)) else data.length - (S - pOff)) =
      min (pOff + data.length) (S + L) - max pOff S from by split <;> omega]

theorem writePieceAux_getElem? (pOff : Nat) (data : List Nat) :
    ∀ (lens : List Nat) (files : List (List Nat)) (curOff k : Nat) (f : List Nat) (L : Nat),
    files.map List.length = lens → files[k]? = some f → lens[k]? = some L →
    (writePieceAux pOff data lens files curOff)[k]? = some (
      if pOff < curOff + (lens.take k).sum + L ∧
          curOff + (lens.take k).sum < pOff + data.length then
        writeAt f (pOff - (curOff + (lens.take k).sum))
          ((data.drop (curOff + (lens.take k).sum - pOff)).take
            (min (pOff + data.length) (curOff + (lens.take k).sum + L) -
              max pOff (curOff + (lens.take k).sum)))
      else f)
  | [], files, curOff, k, f, L, h, hf, hL => by simp at hL
  | L0 :: lens, [], curOff, k, f, L, h, hf, hL => by simp at h
  | L0 :: lens, f0 :: fs, curOff, k, f, L, h, hf, hL => by
    simp only [List.map_cons, List.cons.injEq] at h
    obtain ⟨hf0, hfs⟩ := h
    cases k with
    | zero =>
      simp only [List.getElem?_cons_zero, Option.some.injEq] at hf hL
      subst hf
      subst hL
      simp only [writePieceAux, List.getElem?_cons_zero, List.take_zero,
        List.sum_nil, Nat.add_zero, Option.some.injEq]
      exact goBranch_minmax _ _ curOff pOff data
    | succ k =>
      simp only [List.getElem?_cons_succ] at hf hL
      simp only [writePieceAux, List.getElem?_cons_succ]
      rw [writePieceAux_getElem? pOff data lens fs (curOff + L0) k f L hfs hf hL]
      rw [List.take_succ_cons, List.sum_cons]
      rw [show curOff + (L0 + (lens.take k).sum) = curOff + L0 + (lens.take k).sum
        from by omega]



theorem writeFold_spec (P : Nat) (buffer lens : List Nat) :
    ∀ (m : Nat) (files : List (List Nat)), files.map List.length = lens →
    ((List.range m).foldl
        (fun fs i => writePiece P i ((buffer.drop (i * P)).take P) lens fs)
        files).map List.length = lens ∧
    ((List.range m).foldl
        (fun fs i => writePiece P i ((buffer.drop (i * P)).take P) lens fs)
        files).flatten =
      (List.range m).foldl
        (fun t i => clipWrite t 0 (i * P) ((buffer.drop (i * P)).take P)) files.flatten
  | 0, files, h => ⟨by simpa using h, by simp⟩
  | m + 1, files, h => by
    obtain ⟨ihl, ihf⟩ := writeFold_spec P buffer lens m files h
    rw [List.range_succ, List.foldl_append, List.foldl_cons, List.foldl_nil,
      List.foldl_append, List.foldl_cons, List.foldl_nil]
    constructor
    · simp only [writePiece] at ihl ⊢
      exact writePieceAux_lengths _ _ _ _ _ ihl
    · simp only [writePiece] at ihl ihf ⊢
      rw [writePieceAux_flatten (m * P) _ lens _ 0 ihl, ihf]

theorem numPiecesOf_mul_ge (total P : Nat) (hP : 0 < P) :
    total ≤ numPiecesOf total P * P := by
  have h1 := Nat.div_add_mod (total + P - 1) P
  have h2 := Nat.mod_lt (total + P - 1) hP
  simp only [numPiecesOf]
  rw [Nat.mul_comm]
  omega

/-- Claim C2: splitting a byte buffer of length `total_length` into
`piece_length`-sized pieces and running `writePiece` for every piece index
(i) writes, in each file `k` overlapping piece `i`'s global byte range,
exactly the slice of the piece starting at `max(0, F_start - piece_start)`,
at file offset `max(0, piece_start - F_start)`, of length
`min(piece_end, F_end) - max(piece_start, F_start)` (`writeAt`), leaving
non-overlapping files untouched; and (ii) produces files whose
concatenation equals the original buffer. Subtraction is Nat-truncated,
so `a - b` is `max(0, a - b)`. -/
theorem c2_writeback_correct (P : Nat) (buffer lens : List Nat)
    (files : List (List Nat)) (hP : 0 < P)
    (hfiles : files.map List.length = lens) (hbuf : buffer.length = lens.sum) :
    (∀ (i : Nat) (data : List Nat) (fs : List (List Nat)) (k : Nat)
        (f : List Nat) (L : Nat),
      fs.map List.length = lens → fs[k]? = some f → lens[k]? = some L →
      (writePiece P i data lens fs)[k]? = some (
        if i * P < (lens.take k).sum + L ∧ (lens.take k).sum < i * P + data.length then
          writeAt f (i * P - (lens.take k).sum)
            ((data.drop ((lens.take k).sum - i * P)).take
              (min (i * P + data.length) ((lens.take k).sum + L) -
                max (i * P) (lens.take k).sum))
        else f)) ∧
    (writeAllPieces P buffer lens files).flatten = buffer := by
  constructor
  · intro i data fs k f L h1 h2 h3
    have h := writePieceAux_getElem? (i * P) data lens fs 0 k f L h1 h2 h3
    simpa only [Nat.zero_add] using h
  · have hflat : files.flatten.length = buffer.length := by
      rw [List.length_flatten, hfiles, hbuf]
    obtain ⟨hlenf, hfold⟩ :=
      writeFold_spec P buffer lens (numPiecesOf buffer.length P) files hfiles
    obtain ⟨hlenc, hget⟩ :=
      foldClip_spec P buffer (numPiecesOf buffer.length P) files.flatten hflat
    have hceil := numPiecesOf_mul_ge buffer.length P hP
    apply List.ext_getElem?
    intro j
    rw [show writeAllPieces P buffer lens files =
        (List.range (numPiecesOf buffer.length P)).foldl
          (fun fs i => writePiece P i ((buffer.drop (i * P)).take P) lens fs) files
      from rfl]
    rw [hfold, hget j]
    by_cases hj : j < buffer.length
    · rw [if_pos (by omega)]
    · rw [if_neg (by omega)]
      rw [List.getElem?_eq_none (by omega), List.getElem?_eq_none (by omega)]

theorem c2_writeback_witness :
    List.flatten (writeAllPieces 4 [1, 2, 3, 4, 5, 6, 7, 8] [3, 5]
      [[0, 0, 0], [0, 0, 0, 0, 0]]) = [1, 2, 3, 4, 5, 6, 7, 8] :=
  (c2_writeback_correct 4 [1, 2, 3, 4, 5, 6, 7, 8] [3, 5]
    [[0, 0, 0], [0, 0, 0, 0, 0]] (by decide) (by decide) (by decide)).2

end Gtor
